import Mathlib

/-!
# Verification of the bact-mdr-profiler statistical core

This file gives a shallow embedding, in Lean 4, of the statistical
structure-discovery core of the `bact-mdr-profiler` repository:

* `src/bactmdrprofiler/mdr/classification.py` — class aggregation
  (`build_class_matrix`), MDR identification (`identify_mdr`), Bayesian
  prevalence (`bayesian_prevalence`), and the Bernoulli-convolution MDR
  probability (`mdr_probability`);
* `src/bactmdrprofiler/mdr/decision_v3.py` — the power-set posterior MDR
  probability (`_posterior_mdr_prob`);
* `src/bactmdrprofiler/network/hypergraph.py` — hyperedge extraction
  (`extract_hyperedges`) and hypergraph centrality (`hypergraph_centrality`);
* `src/bactmdrprofiler/causal/discovery.py` — the CMH conditional
  independence test (`_ci_test`) and the edge-removal phase of the PC
  skeleton learner (`pc_skeleton`).

Modelling conventions:

* binary cell values are `Bool` (or `Option Bool` when missing values are
  allowed: `some true` = 1, `some false` = 0, `none` = NA);
* Python floats are modelled by `ℚ`; `round(x, k)` is modelled by exact
  round-half-to-even at `k` decimal digits (`roundTo`);
* calls into scipy (Fisher exact test, chi-squared tests, the chi-squared
  and Beta distribution functions) are numerical black boxes external to
  the repository; they are passed in as explicit oracle parameters, and
  every theorem below holds for an arbitrary oracle unless it
  instantiates one concretely;
* the iteration order of a Python `set` of strings is not fixed by the
  language (it depends on hash randomisation); where the code iterates
  over a `set` (the conditioning pool of `pc_skeleton`) the embedding
  takes an explicit ordering function, and theorems either hold for every
  ordering or exhibit two orderings that disagree.
-/

namespace BactMdr

/-! ## Rounding (Python `round`, half-to-even) -/

/-- Round a rational to the nearest integer, ties to even
(the semantics of Python `round` on exactly-representable values). -/
def rndHalfEven (x : ℚ) : ℤ :=
  if x - ⌊x⌋ < 1/2 then ⌊x⌋
  else if 1/2 < x - ⌊x⌋ then ⌊x⌋ + 1
  else if ⌊x⌋ % 2 = 0 then ⌊x⌋ else ⌊x⌋ + 1

/-- `roundTo k x` models Python `round(x, k)` exactly over the rationals. -/
def roundTo (k : ℕ) (x : ℚ) : ℚ := (rndHalfEven (x * 10 ^ k) : ℚ) / 10 ^ k

theorem rndHalfEven_le_add_one (x : ℚ) : rndHalfEven x ≤ ⌊x⌋ + 1 := by
  unfold rndHalfEven
  split
  · omega
  · split
    · omega
    · split <;> omega

theorem floor_le_rndHalfEven (x : ℚ) : ⌊x⌋ ≤ rndHalfEven x := by
  unfold rndHalfEven
  split
  · omega
  · split
    · omega
    · split <;> omega

theorem rndHalfEven_mono {x y : ℚ} (h : x ≤ y) :
    rndHalfEven x ≤ rndHalfEven y := by
  rcases lt_or_eq_of_le (Int.floor_le_floor h) with hf | hf
  · calc rndHalfEven x ≤ ⌊x⌋ + 1 := rndHalfEven_le_add_one x
      _ ≤ ⌊y⌋ := by omega
      _ ≤ rndHalfEven y := floor_le_rndHalfEven y
  · unfold rndHalfEven
    rw [hf]
    have hx : x - (⌊y⌋ : ℚ) ≤ y - (⌊y⌋ : ℚ) := by linarith
    split
    · split
      · omega
      · split <;> omega
    · have h1 : ¬ (x - (⌊y⌋ : ℚ) < 1/2) := by assumption
      have h2 : ¬ (y - (⌊y⌋ : ℚ) < 1/2) := by
        intro hy; exact h1 (lt_of_le_of_lt hx hy)
      rw [if_neg h2]
      by_cases hx2 : 1/2 < x - (⌊y⌋ : ℚ)
      · have hy2 : 1/2 < y - (⌊y⌋ : ℚ) := lt_of_lt_of_le hx2 hx
        rw [if_pos hx2, if_pos hy2]
      · rw [if_neg hx2]
        by_cases hy2 : 1/2 < y - (⌊y⌋ : ℚ)
        · rw [if_pos hy2]
          split <;> omega
        · rw [if_neg hy2]

theorem rndHalfEven_lt_of_gap {x y : ℚ} (h : x + 1 < y) :
    rndHalfEven x < rndHalfEven y := by
  have hfx := rndHalfEven_le_add_one x
  have hfy := floor_le_rndHalfEven y
  have hflo : ⌊x⌋ + 1 ≤ ⌊y⌋ := by
    apply Int.le_floor.mpr
    push_cast
    have := Int.floor_le x
    linarith
  by_cases hcase : ⌊x⌋ + 2 ≤ ⌊y⌋
  · omega
  · have hYeq : ⌊y⌋ = ⌊x⌋ + 1 := by omega
    by_cases hrx : rndHalfEven x ≤ ⌊x⌋
    · omega
    · have hfr : ¬ (x - (⌊x⌋ : ℚ) < 1/2) := by
        intro hlt
        unfold rndHalfEven at hrx
        rw [if_pos hlt] at hrx
        omega
      have hfrY : 1/2 < y - (⌊y⌋ : ℚ) := by
        have h1 : (1:ℚ)/2 ≤ x - ⌊x⌋ := not_lt.mp hfr
        have h2 : y - (⌊y⌋ : ℚ) = (y - x - 1) + (x - ⌊x⌋) := by
          rw [hYeq]; push_cast; ring
        linarith
      have hry : rndHalfEven y = ⌊y⌋ + 1 := by
        unfold rndHalfEven
        rw [if_neg (lt_asymm hfrY), if_pos hfrY]
      omega

theorem rndHalfEven_pos {x : ℚ} (h : 1/2 < x) : 1 ≤ rndHalfEven x := by
  have hle := floor_le_rndHalfEven x
  by_cases hf : 1 ≤ ⌊x⌋
  · omega
  · have h0 : ⌊x⌋ = 0 := by
      have : (0:ℤ) ≤ ⌊x⌋ := Int.floor_nonneg.mpr (by linarith)
      omega
    have hr : 1/2 < x - (⌊x⌋:ℚ) := by rw [h0]; push_cast; linarith
    unfold rndHalfEven
    rw [if_neg (lt_asymm hr), if_pos hr]
    omega

theorem rndHalfEven_nonneg {x : ℚ} (h : 0 ≤ x) : 0 ≤ rndHalfEven x := by
  have : (0:ℤ) ≤ ⌊x⌋ := Int.floor_nonneg.mpr h
  have := floor_le_rndHalfEven x
  omega

theorem roundTo_mono (k : ℕ) {x y : ℚ} (h : x ≤ y) :
    roundTo k x ≤ roundTo k y := by
  unfold roundTo
  have hp : (0:ℚ) < 10 ^ k := by positivity
  have := rndHalfEven_mono (mul_le_mul_of_nonneg_right h (le_of_lt hp))
  exact (div_le_div_iff_of_pos_right hp).mpr (by exact_mod_cast this)

theorem roundTo_lt_of_gap (k : ℕ) {x y : ℚ} (h : x + 1 / 10 ^ k < y) :
    roundTo k x < roundTo k y := by
  unfold roundTo
  have hp : (0:ℚ) < 10 ^ k := by positivity
  have hxy : x * 10 ^ k + 1 < y * 10 ^ k := by
    have := mul_lt_mul_of_pos_right h hp
    calc x * 10 ^ k + 1 = (x + 1 / 10 ^ k) * 10 ^ k := by field_simp
      _ < y * 10 ^ k := this
  have := rndHalfEven_lt_of_gap hxy
  exact (div_lt_div_iff_of_pos_right hp).mpr (by exact_mod_cast this)

theorem roundTo_nonneg (k : ℕ) {x : ℚ} (h : 0 ≤ x) : 0 ≤ roundTo k x := by
  unfold roundTo
  have hp : (0:ℚ) < 10 ^ k := by positivity
  have h0 := rndHalfEven_nonneg (x := x * 10 ^ k) (by positivity)
  exact div_nonneg (by exact_mod_cast h0) (le_of_lt hp)

theorem roundTo_pos (k : ℕ) {x : ℚ} (h : 1 / (2 * 10 ^ k) < x) :
    0 < roundTo k x := by
  unfold roundTo
  have hp : (0:ℚ) < 10 ^ k := by positivity
  have hh : 1/2 < x * 10 ^ k := by
    have := mul_lt_mul_of_pos_right h hp
    calc (1:ℚ)/2 = 1 / (2 * 10 ^ k) * 10 ^ k := by field_simp
      _ < x * 10 ^ k := this
  have h1 := rndHalfEven_pos hh
  have : (0:ℚ) < (rndHalfEven (x * 10 ^ k) : ℚ) := by exact_mod_cast h1
  positivity

theorem roundTo_one (k : ℕ) : roundTo k 1 = 1 := by
  unfold roundTo rndHalfEven
  have hcast : (1:ℚ) * 10 ^ k = ((10 ^ k : ℤ) : ℚ) := by push_cast; ring
  rw [hcast, Int.floor_intCast]
  rw [if_pos (by norm_num : ((10 ^ k : ℤ) : ℚ) - ((10 ^ k : ℤ) : ℚ) < 1/2)]
  have hp : (0:ℚ) < 10 ^ k := by positivity
  field_simp

theorem roundTo_le_one (k : ℕ) {x : ℚ} (h : x ≤ 1) : roundTo k x ≤ 1 := by
  have := roundTo_mono k h
  rwa [roundTo_one] at this

/-! ## Class aggregation (`classification.py`, `build_class_matrix`)

A phenotype cell is `Option Bool`: `some true` = 1 (resistant),
`some false` = 0 (susceptible), `none` = NA (not tested).  The embedding
works per isolate row: for each class, the per-row value produced by the
pandas masks of `build_class_matrix` is computed from the counts
`n_resistant`, `n_susceptible` over the drugs of the class that are
present among the data columns. -/

/-- Binary data cell with missingness. -/
abbrev Cell := Option Bool

/-- Aggregation rule of `build_class_matrix` (an unrecognised rule name
raises `ValueError` in the source; the inductive type has no such case). -/
inductive ClassRule
  | any
  | all
  | majority
deriving DecidableEq

/-- `[d for d in drugs if d in ph.columns]` of `build_class_matrix`. -/
def presentDrugs (columns drugs : List String) : List String :=
  drugs.filter (fun d => decide (d ∈ columns))

/-- The value assigned to one (isolate, class) cell by `build_class_matrix`:
`s` starts as NA and the rule's masks overwrite it (the masks of each rule
are disjoint, so the sequential `.loc` writes amount to this case split). -/
def classCall (rule : ClassRule) (row : String → Cell) (present : List String) :
    Cell :=
  let n_drugs := present.length
  let n_resistant := present.countP (fun d => decide (row d = some true))
  let n_susceptible := present.countP (fun d => decide (row d = some false))
  let n_tested := n_resistant + n_susceptible
  match rule with
  | .any =>
      if 1 ≤ n_resistant then some true
      else if n_tested = n_drugs ∧ n_resistant = 0 then some false
      else none
  | .all =>
      if n_tested = n_drugs ∧ n_resistant = n_drugs then some true
      else if n_tested = n_drugs ∧ 1 ≤ n_susceptible then some false
      else none
  | .majority =>
      if 0 < n_tested ∧ n_tested < 2 * n_resistant then some true
      else if n_tested = n_drugs ∧ 2 * n_resistant ≤ n_tested then some false
      else none

/-- One output row of `build_class_matrix`: classes with no matched drug
column are dropped (`continue`), every other class gets its aggregated
cell. -/
def build_class_matrix (rule : ClassRule) (columns : List String)
    (row : String → Cell) (classToDrugs : List (String × List String)) :
    List (String × Cell) :=
  (classToDrugs.filter (fun cd => decide (presentDrugs columns cd.2 ≠ []))).map
    (fun cd => (cd.1, classCall rule row (presentDrugs columns cd.2)))

theorem countP_true_pos_iff (row : String → Cell) (l : List String) :
    1 ≤ l.countP (fun d => decide (row d = some true)) ↔
      ∃ d ∈ l, row d = some true := by
  rw [Nat.one_le_iff_ne_zero, ← Nat.pos_iff_ne_zero, List.countP_pos_iff]
  simp

theorem all_false_iff (row : String → Cell) (l : List String) :
    (l.countP (fun d => decide (row d = some true)) +
       l.countP (fun d => decide (row d = some false)) = l.length ∧
     l.countP (fun d => decide (row d = some true)) = 0) ↔
      ∀ d ∈ l, row d = some false := by
  constructor
  · rintro ⟨hsum, hzero⟩
    have hlen : l.countP (fun d => decide (row d = some false)) = l.length := by
      omega
    have := List.countP_eq_length.mp hlen
    intro d hd
    have h := this d hd
    simpa using h
  · intro hall
    have h0 : l.countP (fun d => decide (row d = some true)) = 0 := by
      rw [List.countP_eq_zero]
      intro d hd
      have := hall d hd
      simp [this]
    have h1 : l.countP (fun d => decide (row d = some false)) = l.length := by
      rw [List.countP_eq_length]
      intro d hd
      simp [hall d hd]
    omega

/-- **C3.** Under the `any` rule, `build_class_matrix` sets the class cell to
1 exactly when at least one matched, tested drug of the class equals 1
(regardless of the other drug values, missing ones included); to 0 exactly
when every drug of the class was tested and none is resistant; and to NA in
every remaining case. -/
theorem build_class_matrix_any_trichotomy
    (columns : List String) (row : String → Cell)
    (c2d : List (String × List String)) (cls : String) (drugs : List String)
    (hmem : (cls, drugs) ∈ c2d) (hp : presentDrugs columns drugs ≠ []) :
    ∃ v, (cls, v) ∈ build_class_matrix .any columns row c2d ∧
      (v = some true ↔ ∃ d ∈ presentDrugs columns drugs, row d = some true) ∧
      (v = some false ↔ ∀ d ∈ presentDrugs columns drugs, row d = some false) ∧
      (v = none ↔ ¬ (∃ d ∈ presentDrugs columns drugs, row d = some true) ∧
                  ¬ (∀ d ∈ presentDrugs columns drugs, row d = some false)) := by
  refine ⟨classCall .any row (presentDrugs columns drugs), ?_, ?_⟩
  · unfold build_class_matrix
    apply List.mem_map.mpr
    refine ⟨(cls, drugs), List.mem_filter.mpr ⟨hmem, by simpa using hp⟩, rfl⟩
  · have hA := countP_true_pos_iff row (presentDrugs columns drugs)
    have hB := all_false_iff row (presentDrugs columns drugs)
    unfold classCall
    set l := presentDrugs columns drugs with hl
    simp only
    by_cases h1 : 1 ≤ l.countP (fun d => decide (row d = some true))
    · rw [if_pos h1]
      obtain ⟨d, hd, hdt⟩ := hA.mp h1
      have hnall : ¬ ∀ d ∈ l, row d = some false := by
        intro hall
        have := hall d hd
        rw [hdt] at this
        simp at this
      exact ⟨⟨fun _ => ⟨d, hd, hdt⟩, fun _ => rfl⟩,
             ⟨fun h => absurd h (by decide), fun h => absurd h hnall⟩,
             ⟨fun h => absurd h (by decide), fun h => absurd ⟨d, hd, hdt⟩ h.1⟩⟩
    · rw [if_neg h1]
      have hnex : ¬ ∃ d ∈ l, row d = some true := fun h => h1 (hA.mpr h)
      by_cases h2 : l.countP (fun d => decide (row d = some true)) +
          l.countP (fun d => decide (row d = some false)) = l.length ∧
          l.countP (fun d => decide (row d = some true)) = 0
      · rw [if_pos h2]
        have hall := hB.mp h2
        exact ⟨⟨fun h => absurd h (by decide), fun h => absurd h hnex⟩,
               ⟨fun _ => hall, fun _ => rfl⟩,
               ⟨fun h => absurd h (by decide), fun h => absurd hall h.2⟩⟩
      · rw [if_neg h2]
        have hnall : ¬ ∀ d ∈ l, row d = some false := fun h => h2 (hB.mpr h)
        exact ⟨⟨fun h => absurd h (by decide), fun h => absurd h hnex⟩,
               ⟨fun h => absurd h (by decide), fun h => absurd h hnall⟩,
               ⟨fun _ => ⟨hnex, hnall⟩, fun _ => rfl⟩⟩

/-- Closing the hypotheses of `build_class_matrix_any_trichotomy` at a
concrete instance: one class `"Pen"` with drugs `["AMP", "AMX"]`, a row
where AMP is resistant and AMX untested. -/
theorem build_class_matrix_any_trichotomy_witness :
    ("Pen", ["AMP", "AMX"]) ∈ [("Pen", ["AMP", "AMX"])] ∧
    presentDrugs ["AMP", "AMX"] ["AMP", "AMX"] ≠ [] ∧
    ∃ v, ("Pen", v) ∈ build_class_matrix .any ["AMP", "AMX"]
          (fun d => if d = "AMP" then some true else none)
          [("Pen", ["AMP", "AMX"])] ∧
      (v = some true ↔ ∃ d ∈ presentDrugs ["AMP", "AMX"] ["AMP", "AMX"],
        (fun d => if d = "AMP" then some true else none) d = some true) ∧
      (v = some false ↔ ∀ d ∈ presentDrugs ["AMP", "AMX"] ["AMP", "AMX"],
        (fun d => if d = "AMP" then some true else none) d = some false) ∧
      (v = none ↔ ¬ (∃ d ∈ presentDrugs ["AMP", "AMX"] ["AMP", "AMX"],
          (fun d => if d = "AMP" then some true else none) d = some true) ∧
        ¬ (∀ d ∈ presentDrugs ["AMP", "AMX"] ["AMP", "AMX"],
          (fun d => if d = "AMP" then some true else none) d = some false)) :=
  ⟨by decide, by decide,
    build_class_matrix_any_trichotomy ["AMP", "AMX"]
      (fun d => if d = "AMP" then some true else none)
      [("Pen", ["AMP", "AMX"])] "Pen" ["AMP", "AMX"] (by decide) (by decide)⟩

/-! ## MDR identification (`classification.py`, `identify_mdr`) -/

/-- `identify_mdr` on one row of class calls.  `out` starts as `False` and
the three masks overwrite it in sequence; the embedding applies the three
assignments in the source's order (last assignment wins). -/
def identify_mdr (row : List Cell) (threshold : ℕ) : Option Bool :=
  let min_res := row.countP (fun v => decide (v = some true))
  let n_missing := row.countP (fun v => decide (v = none))
  let max_res := min_res + n_missing
  let v1 : Option Bool := some false
  let v2 := if threshold ≤ min_res then some true else v1
  let v3 := if max_res < threshold then some false else v2
  if min_res < threshold ∧ threshold ≤ max_res then none else v3

/-- **C10.** `identify_mdr` realises a total trichotomy: `True` exactly when
the known-resistant count reaches the threshold, `False` exactly when even
all missing classes turning resistant stays below the threshold, `NA` in
exactly the remaining band; in particular it never returns `False` once the
known-resistant count meets the threshold. -/
theorem identify_mdr_trichotomy (row : List Cell) (threshold : ℕ) :
    (identify_mdr row threshold = some true ↔
      threshold ≤ row.countP (fun v => decide (v = some true))) ∧
    (identify_mdr row threshold = some false ↔
      row.countP (fun v => decide (v = some true)) +
        row.countP (fun v => decide (v = none)) < threshold) ∧
    (identify_mdr row threshold = none ↔
      row.countP (fun v => decide (v = some true)) < threshold ∧
      threshold ≤ row.countP (fun v => decide (v = some true)) +
        row.countP (fun v => decide (v = none))) := by
  unfold identify_mdr
  set a := row.countP (fun v => decide (v = some true)) with ha
  set m := row.countP (fun v => decide (v = none)) with hm
  simp only
  split_ifs with h1 h2 h3 <;>
    refine ⟨⟨fun hx => ?_, fun hx => ?_⟩, ⟨fun hx => ?_, fun hx => ?_⟩,
            ⟨fun hx => ?_, fun hx => ?_⟩⟩ <;>
    first
      | rfl
      | omega
      | (exact absurd hx (by decide))

/-! ## Bayesian prevalence (`classification.py`, `bayesian_prevalence`) -/

/-- Result record of `bayesian_prevalence` (the `total ≤ 0` branch, which
returns NaNs, is modelled as `none` in `bayesian_prevalence`). -/
structure PrevSummary where
  mean : ℚ
  mode : ℚ
  lo : ℚ
  hi : ℚ
deriving DecidableEq

/-- `bayesian_prevalence`, with the scipy Beta quantile function passed as
the oracle `betaPpf tail a b`. -/
def bayesian_prevalence (betaPpf : ℚ → ℚ → ℚ → ℚ) (positives total : ℕ)
    (prior_a prior_b credible : ℚ) : Option PrevSummary :=
  if total = 0 then none
  else
    let pa := prior_a + positives
    let pb := prior_b + ((total : ℚ) - positives)
    let mean := pa / (pa + pb)
    let mode := if 1 < pa ∧ 1 < pb then (pa - 1) / (pa + pb - 2) else mean
    let tail := (1 - credible) / 2
    some ⟨roundTo 6 mean, roundTo 6 mode,
          roundTo 6 (betaPpf tail pa pb), roundTo 6 (betaPpf (1 - tail) pa pb)⟩

/-- **C9, counterexample.** At `n = 10^6 > 0`, `bayesian_prevalence(0, n)`
reports `Posterior_Mean = 0.0`: the exact posterior mean `0.5 / (n + 1)`
is below half of the final rounding step's resolution of `10^-6`, so
`round(mean, 6)` collapses it to zero and the reported mean is not
strictly positive.  (The Beta-quantile oracle is irrelevant to the mean;
it is instantiated with the zero function.) -/
theorem bayesian_prevalence_mean_collapses_to_zero :
    (0:ℕ) < 1000000 ∧
    (bayesian_prevalence (fun _ _ _ => 0) 0 1000000 (1/2) (1/2)
        (95/100)).map PrevSummary.mean = some 0 := by
  refine ⟨by norm_num, ?_⟩
  have hmean : (1/2 + ((0:ℕ):ℚ)) /
      (1/2 + ((0:ℕ):ℚ) + (1/2 + (((1000000:ℕ):ℚ) - ((0:ℕ):ℚ)))) = 1/2000002 := by
    norm_num
  have hfloor : ⌊(1:ℚ)/2000002 * 10 ^ 6⌋ = 0 := by
    rw [Int.floor_eq_zero_iff]
    constructor <;> norm_num
  have hround : roundTo 6 (1/2000002) = 0 := by
    unfold roundTo rndHalfEven
    rw [hfloor, if_pos (by norm_num)]
    norm_num
  unfold bayesian_prevalence
  rw [if_neg (by norm_num)]
  simp only [hmean, hround]
  rfl

/-- **C9, amended.** For `0 < n < 999999` the reported `Posterior_Mean` of
`bayesian_prevalence(0, n)` is strictly positive (the exact posterior mean
`0.5/(n+1)` is always positive, but the 6-decimal output rounding collapses
it to `0.0` once `n ≥ 999999`); and `CI_Lo < CI_Hi` whenever the
upper-tail Beta quantile exceeds the lower-tail quantile by more than the
rounding resolution `10^-6`. -/
theorem bayesian_prevalence_pos_mean
    (betaPpf : ℚ → ℚ → ℚ → ℚ) (n : ℕ) (credible : ℚ)
    (hn : 0 < n) (hsmall : n < 999999)
    (hgap : betaPpf ((1 - credible)/2) (1/2 + (0:ℕ)) (1/2 + ((n:ℚ) - (0:ℕ)))
        + 1/10^6 <
      betaPpf (1 - (1 - credible)/2) (1/2 + (0:ℕ)) (1/2 + ((n:ℚ) - (0:ℕ)))) :
    ∃ r, bayesian_prevalence betaPpf 0 n (1/2) (1/2) credible = some r ∧
      0 < r.mean ∧ r.lo < r.hi := by
  unfold bayesian_prevalence
  rw [if_neg (by omega : ¬ n = 0)]
  refine ⟨_, rfl, ?_, ?_⟩
  · simp only
    apply roundTo_pos
    have hne : ((n:ℚ)) + 1 > 0 := by positivity
    have heq : (1/2 + ((0:ℕ):ℚ)) / (1/2 + ((0:ℕ):ℚ) + (1/2 + ((n:ℚ) - ((0:ℕ):ℚ)))) =
        1 / (2 * ((n:ℚ) + 1)) := by
      push_cast
      rw [div_eq_div_iff (by linarith) (by positivity)]
      ring
    rw [heq]
    have hlt : ((n:ℚ)) + 1 < 10 ^ 6 := by
      have : (n:ℚ) < 999999 := by exact_mod_cast hsmall
      norm_num
      linarith
    apply div_lt_div_of_pos_left (by norm_num) (by positivity)
    nlinarith
  · simp only
    exact roundTo_lt_of_gap 6 hgap

/-- Closing the hypotheses of `bayesian_prevalence_pos_mean` at `n = 3`,
`credible = 0.95`, with the quantile oracle `betaPpf t a b = t`. -/
theorem bayesian_prevalence_pos_mean_witness :
    (0:ℕ) < 3 ∧ (3:ℕ) < 999999 ∧
    ∃ r, bayesian_prevalence (fun t _ _ => t) 0 3 (1/2) (1/2) (95/100) = some r ∧
      0 < r.mean ∧ r.lo < r.hi :=
  ⟨by decide, by decide,
    bayesian_prevalence_pos_mean (fun t _ _ => t) 3 (95/100)
      (by decide) (by decide) (by norm_num)⟩

/-! ## Posterior MDR probability (`decision_v3.py`, `_posterior_mdr_prob`)
and its convolution counterpart (`classification.py`, `mdr_probability`)

A row of class calls is a `List (String × Cell)` in column order (the
source materialises `row.to_dict()`, which preserves the column order).
The per-class prior for missing entries is a total function
`prior : String → ℚ`, modelling `(missing_prior or {}).get(c, 0.5)`. -/

/-- Count of known-resistant classes of a row (`known_pos` in
`_posterior_mdr_prob`, `min_res` in `mdr_probability`). -/
def knownPos (row : List (String × Cell)) : ℕ :=
  row.countP (fun x => decide (x.2 = some true))

/-- Names of the missing class calls, in column order. -/
def missingOf (row : List (String × Cell)) : List String :=
  (row.filter (fun x => decide (x.2 = none))).map Prod.fst

/-- One step of the inner loop `for i, c in enumerate(missing)` of
`_posterior_mdr_prob`, applied to the probability `p` of the current
class.  The state is `(i, kk, pr)`; `mask / 2 ^ i % 2` is `(mask >> i) & 1`. -/
def stepQ (mask : ℕ) (st : ℕ × ℕ × ℚ) (p : ℚ) : ℕ × ℕ × ℚ :=
  if mask / 2 ^ st.1 % 2 = 1 then (st.1 + 1, st.2.1 + 1, st.2.2 * p)
  else (st.1 + 1, st.2.1, st.2.2 * (1 - p))

/-- `_posterior_mdr_prob` from `decision_v3.py`: early exits, then the
power-set enumeration over bit masks, then the final clamp
`min(max(p, 0.0), 1.0)`. -/
def _posterior_mdr_prob (row : List (String × Cell)) (threshold : ℕ)
    (prior : String → ℚ) : ℚ :=
  let known_pos := knownPos row
  let missing := missingOf row
  if threshold ≤ known_pos then 1
  else if known_pos + missing.length < threshold then 0
  else
    let total := ((List.range (2 ^ missing.length)).map (fun mask =>
        let st := missing.foldl (fun st c => stepQ mask st (prior c))
          (0, known_pos, 1)
        if threshold ≤ st.2.1 then st.2.2 else 0)).sum
    min (max total 0) 1

/-- Number of set bits of `mask` among the positions of `ps`
(the mask is shifted right as the list is consumed). -/
def bitsCount (mask : ℕ) : List ℚ → ℕ
  | [] => 0
  | _ :: ps => mask % 2 + bitsCount (mask / 2) ps

/-- Product of `p` (bit set) or `1 - p` (bit clear) over the positions of
`ps`. -/
def bitsProd (mask : ℕ) : List ℚ → ℚ
  | [] => 1
  | p :: ps => (if mask % 2 = 1 then p else 1 - p) * bitsProd (mask / 2) ps

/-- The mask-indexed sum at the heart of `_posterior_mdr_prob`, as a
`Finset` sum over all `2 ^ ps.length` masks. -/
def maskSumQ (known t : ℕ) (ps : List ℚ) : ℚ :=
  ∑ mask ∈ Finset.range (2 ^ ps.length),
    if t ≤ known + bitsCount mask ps then bitsProd mask ps else 0

theorem foldl_stepQ (mask : ℕ) :
    ∀ (ps : List ℚ) (i0 k0 : ℕ) (q0 : ℚ),
      ps.foldl (stepQ mask) (i0, k0, q0) =
        (i0 + ps.length, k0 + bitsCount (mask / 2 ^ i0) ps,
         q0 * bitsProd (mask / 2 ^ i0) ps) := by
  intro ps
  induction ps with
  | nil => intro i0 k0 q0; simp [bitsCount, bitsProd]
  | cons p ps ih =>
    intro i0 k0 q0
    have hdiv : mask / 2 ^ i0 / 2 = mask / 2 ^ (i0 + 1) := by
      rw [Nat.div_div_eq_div_mul, ← pow_succ]
    by_cases hbit : mask / 2 ^ i0 % 2 = 1
    · rw [List.foldl_cons]
      rw [show stepQ mask (i0, k0, q0) p = (i0 + 1, k0 + 1, q0 * p) from by
        unfold stepQ; rw [if_pos hbit]]
      rw [ih]
      simp only [bitsCount, bitsProd, hdiv, hbit, if_pos]
      refine congrArg₂ _ (by simp only [List.length_cons]; omega)
        (congrArg₂ _ (by omega) (by ring))
    · rw [List.foldl_cons]
      rw [show stepQ mask (i0, k0, q0) p = (i0 + 1, k0, q0 * (1 - p)) from by
        unfold stepQ; rw [if_neg hbit]]
      rw [ih]
      have hbit0 : mask / 2 ^ i0 % 2 = 0 := by omega
      simp only [bitsCount, bitsProd, hdiv, hbit0]
      rw [if_neg (by omega)]
      refine congrArg₂ _ (by simp only [List.length_cons]; omega)
        (congrArg₂ _ (by omega) (by ring))

theorem list_range_map_sum (k : ℕ) (f : ℕ → ℚ) :
    (List.map f (List.range k)).sum = ∑ j ∈ Finset.range k, f j := by
  induction k with
  | zero => simp
  | succ m ih => rw [List.range_succ, Finset.sum_range_succ]; simp [ih]

/-- The mask enumeration of `_posterior_mdr_prob` (before the clamp) is
`maskSumQ` over the mapped prior probabilities. -/
theorem posterior_sum_eq_maskSumQ (row : List (String × Cell)) (t : ℕ)
    (prior : String → ℚ) :
    ((List.range (2 ^ (missingOf row).length)).map (fun mask =>
        let st := (missingOf row).foldl
          (fun st c => stepQ mask st (prior c)) (0, knownPos row, 1)
        if t ≤ st.2.1 then st.2.2 else 0)).sum =
      maskSumQ (knownPos row) t ((missingOf row).map prior) := by
  rw [list_range_map_sum]
  unfold maskSumQ
  rw [List.length_map]
  apply Finset.sum_congr rfl
  intro mask _
  have hfold : (missingOf row).foldl (fun st c => stepQ mask st (prior c))
      (0, knownPos row, 1) =
      ((missingOf row).map prior).foldl (stepQ mask) (0, knownPos row, 1) :=
    (List.foldl_map prior (stepQ mask) (missingOf row) _).symm
  rw [hfold, foldl_stepQ]
  simp only [pow_zero, Nat.div_one]
  rw [one_mul]

theorem sum_range_double (f : ℕ → ℚ) (n : ℕ) :
    ∑ i ∈ Finset.range (2 * n), f i =
      ∑ k ∈ Finset.range n, (f (2 * k) + f (2 * k + 1)) := by
  induction n with
  | zero => simp
  | succ n ih =>
    have h2 : 2 * (n + 1) = (2 * n + 1) + 1 := by omega
    rw [h2, Finset.sum_range_succ, Finset.sum_range_succ, ih,
        Finset.sum_range_succ]
    ring

theorem sum_range_split (f : ℕ → ℚ) (a b : ℕ) :
    ∑ i ∈ Finset.range (a + b), f i =
      (∑ i ∈ Finset.range a, f i) + ∑ i ∈ Finset.range b, f (a + i) := by
  induction b with
  | zero => simp
  | succ b ih =>
    have h : a + (b + 1) = (a + b) + 1 := by omega
    rw [h, Finset.sum_range_succ, ih, Finset.sum_range_succ, add_assoc]

/-- Front recurrence for `maskSumQ`: splitting every mask into its lowest
bit (the first missing class) and the rest. -/
theorem maskSumQ_cons (known t : ℕ) (p : ℚ) (ps : List ℚ) :
    maskSumQ known t (p :: ps) =
      (1 - p) * maskSumQ known t ps + p * maskSumQ (known + 1) t ps := by
  unfold maskSumQ
  rw [List.length_cons, pow_succ, mul_comm (2 ^ ps.length) 2,
      sum_range_double]
  rw [Finset.sum_add_distrib, Finset.mul_sum, Finset.mul_sum]
  congr 1
  · apply Finset.sum_congr rfl
    intro k _
    have h1 : (2 * k) % 2 = 0 := by omega
    have h2 : (2 * k) / 2 = k := by omega
    simp only [bitsCount, bitsProd, h1, h2]
    rw [if_neg (by omega : ¬ (0 : ℕ) = 1), mul_ite, mul_zero]
    exact if_congr (by omega) rfl rfl
  · apply Finset.sum_congr rfl
    intro k _
    have h1 : (2 * k + 1) % 2 = 1 := by omega
    have h2 : (2 * k + 1) / 2 = k := by omega
    simp only [bitsCount, bitsProd, h1, h2, if_true]
    rw [mul_ite, mul_zero]
    exact if_congr (by omega) rfl rfl

theorem bitsCount_append (p : ℚ) :
    ∀ (xs : List ℚ) (mask : ℕ),
      bitsCount mask (xs ++ [p]) =
        bitsCount mask xs + mask / 2 ^ xs.length % 2 := by
  intro xs
  induction xs with
  | nil => intro mask; simp [bitsCount]
  | cons q qs ih =>
    intro mask
    have hdd : mask / 2 / 2 ^ qs.length = mask / 2 ^ (qs.length + 1) := by
      rw [Nat.div_div_eq_div_mul, ← pow_succ']
    rw [List.cons_append]
    simp only [bitsCount]
    rw [ih (mask / 2), List.length_cons, hdd]
    omega

theorem bitsProd_append (p : ℚ) :
    ∀ (xs : List ℚ) (mask : ℕ),
      bitsProd mask (xs ++ [p]) =
        bitsProd mask xs *
          (if mask / 2 ^ xs.length % 2 = 1 then p else 1 - p) := by
  intro xs
  induction xs with
  | nil => intro mask; simp [bitsProd]
  | cons q qs ih =>
    intro mask
    have hdd : mask / 2 / 2 ^ qs.length = mask / 2 ^ (qs.length + 1) := by
      rw [Nat.div_div_eq_div_mul, ← pow_succ']
    rw [List.cons_append]
    simp only [bitsProd]
    rw [ih (mask / 2), List.length_cons, hdd]
    ring

theorem bitsCount_high_bit :
    ∀ (ps : List ℚ) (m k : ℕ), ps.length ≤ m →
      bitsCount (2 ^ m + k) ps = bitsCount k ps := by
  intro ps
  induction ps with
  | nil => intro m k _; simp [bitsCount]
  | cons q qs ih =>
    intro m k hm
    cases m with
    | zero => simp [List.length_cons] at hm
    | succ m' =>
      have h2 : 2 ^ (m' + 1) = 2 ^ m' * 2 := by rw [pow_succ]
      have hmod : (2 ^ (m' + 1) + k) % 2 = k % 2 := by omega
      have hdiv : (2 ^ (m' + 1) + k) / 2 = 2 ^ m' + k / 2 := by omega
      have hlen : qs.length ≤ m' := by
        simp only [List.length_cons] at hm
        omega
      simp only [bitsCount, hmod, hdiv]
      rw [ih m' (k / 2) hlen]

theorem bitsProd_high_bit :
    ∀ (ps : List ℚ) (m k : ℕ), ps.length ≤ m →
      bitsProd (2 ^ m + k) ps = bitsProd k ps := by
  intro ps
  induction ps with
  | nil => intro m k _; simp [bitsProd]
  | cons q qs ih =>
    intro m k hm
    cases m with
    | zero => simp [List.length_cons] at hm
    | succ m' =>
      have h2 : 2 ^ (m' + 1) = 2 ^ m' * 2 := by rw [pow_succ]
      have hmod : (2 ^ (m' + 1) + k) % 2 = k % 2 := by omega
      have hdiv : (2 ^ (m' + 1) + k) / 2 = 2 ^ m' + k / 2 := by omega
      have hlen : qs.length ≤ m' := by
        simp only [List.length_cons] at hm
        omega
      simp only [bitsProd, hmod, hdiv]
      rw [ih m' (k / 2) hlen]

/-- Back recurrence for `maskSumQ`: splitting every mask on its highest
bit (the last missing class). -/
theorem maskSumQ_concat (known t : ℕ) (p : ℚ) (ps : List ℚ) :
    maskSumQ known t (ps ++ [p]) =
      (1 - p) * maskSumQ known t ps + p * maskSumQ (known + 1) t ps := by
  unfold maskSumQ
  have hlen : (ps ++ [p]).length = ps.length + 1 := by simp
  rw [hlen]
  have hpw : 2 ^ (ps.length + 1) = 2 ^ ps.length + 2 ^ ps.length := by
    rw [pow_succ]; omega
  rw [hpw, sum_range_split, Finset.mul_sum, Finset.mul_sum]
  congr 1
  · apply Finset.sum_congr rfl
    intro mask hmask
    have hlt : mask < 2 ^ ps.length := Finset.mem_range.mp hmask
    have hdiv : mask / 2 ^ ps.length = 0 := Nat.div_eq_of_lt hlt
    rw [bitsCount_append, bitsProd_append, hdiv]
    rw [if_neg (by omega : ¬ (0 : ℕ) % 2 = 1)]
    by_cases hc : t ≤ known + bitsCount mask ps
    · rw [if_pos (by omega), if_pos hc]; ring
    · rw [if_neg (by omega), if_neg hc]; ring
  · apply Finset.sum_congr rfl
    intro i hi
    have hlt : i < 2 ^ ps.length := Finset.mem_range.mp hi
    have hpos : 0 < 2 ^ ps.length := Nat.pos_pow_of_pos _ (by omega)
    have hdiv : (2 ^ ps.length + i) / 2 ^ ps.length = 1 := by
      rw [show 2 ^ ps.length + i = 2 ^ ps.length * 1 + i by omega,
          Nat.mul_add_div hpos, Nat.div_eq_of_lt hlt]
    rw [bitsCount_append, bitsProd_append, hdiv,
        bitsCount_high_bit ps ps.length i le_rfl,
        bitsProd_high_bit ps ps.length i le_rfl]
    rw [if_pos (by omega : (1 : ℕ) % 2 = 1)]
    by_cases hc : t ≤ known + 1 + bitsCount i ps
    · rw [if_pos (by omega), if_pos hc]; ring
    · rw [if_neg (by omega), if_neg hc]; ring

/-- Raising the known count by one is the same as lowering the threshold
by one (with truncation at zero). -/
theorem maskSumQ_known_shift (k t : ℕ) (ps : List ℚ) :
    maskSumQ (k + 1) t ps = maskSumQ k (t - 1) ps := by
  unfold maskSumQ
  apply Finset.sum_congr rfl
  intro mask _
  exact if_congr (by omega) rfl rfl

theorem maskSumQ_eq_zero_known (k t : ℕ) (ps : List ℚ) :
    maskSumQ k t ps = maskSumQ 0 (t - k) ps := by
  induction k generalizing t with
  | zero => simp
  | succ k ih =>
    rw [maskSumQ_known_shift, ih]
    congr 1
    omega

theorem maskSumQ_threshold_zero (ps : List ℚ) :
    ∀ known, maskSumQ known 0 ps = 1 := by
  induction ps with
  | nil =>
    intro known
    unfold maskSumQ
    simp [bitsProd]
  | cons p ps ih =>
    intro known
    rw [maskSumQ_cons, ih, ih]
    ring

theorem maskSumQ_bounds (ps : List ℚ) (h : ∀ p ∈ ps, 0 ≤ p ∧ p ≤ 1) :
    ∀ known t, 0 ≤ maskSumQ known t ps ∧ maskSumQ known t ps ≤ 1 := by
  induction ps with
  | nil =>
    intro known t
    unfold maskSumQ
    simp only [List.length_nil, pow_zero, Finset.range_one, Finset.sum_singleton]
    split <;> norm_num [bitsProd]
  | cons p ps ih =>
    intro known t
    have hp := h p (List.mem_cons_self p ps)
    have ih' := ih (fun q hq => h q (List.mem_cons_of_mem p hq))
    have h1 := ih' known t
    have h2 := ih' (known + 1) t
    rw [maskSumQ_cons]
    constructor
    · nlinarith [h1.1, h1.2, h2.1, h2.2, hp.1, hp.2]
    · nlinarith [h1.1, h1.2, h2.1, h2.2, hp.1, hp.2]

/-- The claim's reading of the enumeration: a sum over all subsets of the
missing classes (the subset being the classes assigned 1), each weighted
by the product of per-class priors and complements, restricted to
assignments whose resistant count reaches the threshold. -/
def specPosterior (prior : String → ℚ) (known t : ℕ)
    (missing : List String) : ℚ :=
  ∑ s ∈ missing.toFinset.powerset,
    if t ≤ known + s.card then
      (∏ c ∈ s, prior c) * (∏ c ∈ missing.toFinset \ s, (1 - prior c))
    else 0

theorem specPosterior_nil (prior : String → ℚ) (known t : ℕ) :
    specPosterior prior known t [] = if t ≤ known then 1 else 0 := by
  unfold specPosterior
  simp

theorem specPosterior_cons (prior : String → ℚ) (known t : ℕ)
    (c : String) (cs : List String) (hc : c ∉ cs) :
    specPosterior prior known t (c :: cs) =
      (1 - prior c) * specPosterior prior known t cs +
        prior c * specPosterior prior (known + 1) t cs := by
  have hcA : c ∉ cs.toFinset := by simpa using hc
  unfold specPosterior
  rw [List.toFinset_cons, Finset.powerset_insert]
  have hdisj : Disjoint cs.toFinset.powerset
      (cs.toFinset.powerset.image (insert c)) := by
    rw [Finset.disjoint_left]
    intro s hs hs'
    obtain ⟨u, hu, hequ⟩ := Finset.mem_image.mp hs'
    have hcs : c ∈ s := by rw [← hequ]; exact Finset.mem_insert_self c u
    exact hcA (Finset.mem_powerset.mp hs hcs)
  rw [Finset.sum_union hdisj]
  congr 1
  · rw [Finset.mul_sum]
    apply Finset.sum_congr rfl
    intro s hs
    have hcs : c ∉ s := fun h => hcA (Finset.mem_powerset.mp hs h)
    have hcds : c ∉ cs.toFinset \ s := fun h => hcA (Finset.mem_sdiff.mp h).1
    rw [Finset.insert_sdiff_of_not_mem _ hcs, Finset.prod_insert hcds]
    rw [mul_ite, mul_zero]
    apply if_congr Iff.rfl (by ring) rfl
  · have hinj : ∀ x ∈ cs.toFinset.powerset, ∀ y ∈ cs.toFinset.powerset,
        insert c x = insert c y → x = y := by
      intro x hx y hy hxy
      have hcx : c ∉ x := fun h => hcA (Finset.mem_powerset.mp hx h)
      have hcy : c ∉ y := fun h => hcA (Finset.mem_powerset.mp hy h)
      rw [← Finset.erase_insert hcx, ← Finset.erase_insert hcy, hxy]
    rw [Finset.sum_image hinj, Finset.mul_sum]
    apply Finset.sum_congr rfl
    intro s hs
    have hssub := Finset.mem_powerset.mp hs
    have hcs : c ∉ s := fun h => hcA (hssub h)
    have hcomp : insert c cs.toFinset \ insert c s = cs.toFinset \ s := by
      ext x
      simp only [Finset.mem_sdiff, Finset.mem_insert, not_or]
      constructor
      · rintro ⟨hx1 | hx1, hx2, hx3⟩
        · exact absurd hx1 hx2
        · exact ⟨hx1, hx3⟩
      · rintro ⟨hx1, hx2⟩
        exact ⟨Or.inr hx1, fun he => hcA (he ▸ hx1), hx2⟩
    rw [hcomp, Finset.card_insert_of_not_mem hcs, Finset.prod_insert hcs]
    rw [mul_ite, mul_zero]
    exact if_congr (by omega) (by ring) rfl

theorem maskSumQ_eq_specPosterior (prior : String → ℚ) (t : ℕ) :
    ∀ (missing : List String), missing.Nodup → ∀ known,
      maskSumQ known t (missing.map prior) =
        specPosterior prior known t missing := by
  intro missing
  induction missing with
  | nil =>
    intro _ known
    rw [specPosterior_nil]
    unfold maskSumQ
    simp [bitsProd, bitsCount]
  | cons c cs ih =>
    intro hnd known
    obtain ⟨hc, hcs⟩ := List.nodup_cons.mp hnd
    rw [List.map_cons, maskSumQ_cons, specPosterior_cons prior known t c cs hc,
        ih hcs known, ih hcs (known + 1)]

/-- **C5.** `_posterior_mdr_prob` returns 1 when the known-resistant count
already meets the threshold, 0 when even all missing classes turning
resistant cannot reach it, and otherwise the sum, over all `2^m`
assignments of the `m` missing classes, of the product of per-class prior
(assigned 1) or complement (assigned 0) probabilities, restricted to
assignments whose total resistant count reaches the threshold (the
column names of a data frame are distinct, whence the `Nodup` hypothesis;
the priors are probabilities, which makes the final clamp of the source a
no-op). -/
theorem posterior_mdr_prob_spec (row : List (String × Cell)) (t : ℕ)
    (prior : String → ℚ) (hnd : (missingOf row).Nodup)
    (hb : ∀ c, 0 ≤ prior c ∧ prior c ≤ 1) :
    _posterior_mdr_prob row t prior =
      if t ≤ knownPos row then 1
      else if knownPos row + (missingOf row).length < t then 0
      else specPosterior prior (knownPos row) t (missingOf row) := by
  simp only [_posterior_mdr_prob]
  by_cases h1 : t ≤ knownPos row
  · rw [if_pos h1, if_pos h1]
  · rw [if_neg h1, if_neg h1]
    by_cases h2 : knownPos row + (missingOf row).length < t
    · rw [if_pos h2, if_pos h2]
    · rw [if_neg h2, if_neg h2]
      rw [posterior_sum_eq_maskSumQ row t prior]
      have hbps : ∀ p ∈ (missingOf row).map prior, 0 ≤ p ∧ p ≤ 1 := by
        intro p hp
        obtain ⟨c, -, rfl⟩ := List.mem_map.mp hp
        exact hb c
      have hbound := maskSumQ_bounds _ hbps (knownPos row) t
      rw [max_eq_left hbound.1, min_eq_left hbound.2]
      exact maskSumQ_eq_specPosterior prior t (missingOf row) hnd (knownPos row)

/-- Closing the hypotheses of `posterior_mdr_prob_spec` at a concrete
instance: one known-resistant class and two missing ones, uniform priors
`1/2`, threshold 2. -/
theorem posterior_mdr_prob_spec_witness :
    (missingOf [("A", some true), ("B", none), ("C", none)]).Nodup ∧
    (∀ c : String, 0 ≤ (fun _ : String => (1:ℚ)/2) c ∧
      (fun _ : String => (1:ℚ)/2) c ≤ 1) ∧
    _posterior_mdr_prob [("A", some true), ("B", none), ("C", none)] 2
        (fun _ => 1/2) =
      if 2 ≤ knownPos [("A", some true), ("B", none), ("C", none)] then 1
      else if knownPos [("A", some true), ("B", none), ("C", none)] +
          (missingOf [("A", some true), ("B", none), ("C", none)]).length < 2
        then 0
      else specPosterior (fun _ => 1/2) (knownPos [("A", some true),
        ("B", none), ("C", none)]) 2
        (missingOf [("A", some true), ("B", none), ("C", none)]) :=
  ⟨by decide, fun c => ⟨by norm_num, by norm_num⟩,
    posterior_mdr_prob_spec [("A", some true), ("B", none), ("C", none)] 2
      (fun _ => 1/2) (by decide) (fun c => ⟨by norm_num, by norm_num⟩)⟩

/-- `np.convolve(dist, [1.0 - p, p])` for a one-dimensional `dist`: the
full discrete convolution, written as the pointwise sum of the
`(1-p)`-scaled distribution (padded right) and the `p`-scaled
distribution (shifted right by one). -/
def convStep (dist : List ℚ) (p : ℚ) : List ℚ :=
  List.zipWith (· + ·) (dist.map (· * (1 - p)) ++ [0])
    (0 :: dist.map (· * p))

/-- The per-row `P_MDR` computation of `mdr_probability`
(`classification.py`): fold the Bernoulli convolution over the missing
classes' priors and sum the tail of the resulting count distribution.
`need = threshold - min_res` truncates at zero, matching
`max(0, threshold - int(min_res))`; the final guard matches
`dist[need:].sum() if need < len(dist) else 0.0`.  The per-class prior is
a parameter (the source derives it from the column means, clipped to
`[0, 1]`; the claim quantifies over a common prior for both routines). -/
def mdr_probability_row (row : List (String × Cell)) (threshold : ℕ)
    (prior : String → ℚ) : ℚ :=
  let min_res := knownPos row
  let probs := (missingOf row).map prior
  let dist := probs.foldl convStep [1]
  let need := threshold - min_res
  if need < dist.length then ((dist.drop need).sum) else 0

/-- Helper: the result of `convStep` with an explicit carry `a` for the
shifted-by-one component. -/
def convAux (p a : ℚ) : List ℚ → List ℚ
  | [] => [0 + a]
  | x :: xs => (x * (1 - p) + a) :: convAux p (x * p) xs

theorem convStep_eq_aux (p : ℚ) :
    ∀ (xs : List ℚ) (a : ℚ),
      List.zipWith (· + ·) (xs.map (· * (1 - p)) ++ [0])
          (a :: xs.map (· * p)) = convAux p a xs := by
  intro xs
  induction xs with
  | nil => intro a; simp [convAux]
  | cons x xs ih =>
    intro a
    simp only [List.map_cons, List.cons_append, List.zipWith_cons_cons,
      convAux]
    rw [ih (x * p)]

theorem convAux_length (p : ℚ) :
    ∀ (xs : List ℚ) (a : ℚ), (convAux p a xs).length = xs.length + 1 := by
  intro xs
  induction xs with
  | nil => intro a; simp [convAux]
  | cons x xs ih => intro a; simp [convAux, ih]

theorem convStep_length (d : List ℚ) (p : ℚ) :
    (convStep d p).length = d.length + 1 := by
  unfold convStep
  rw [convStep_eq_aux, convAux_length]

theorem convAux_drop_sum (p : ℚ) :
    ∀ (xs : List ℚ) (a : ℚ) (need : ℕ),
      ((convAux p a xs).drop need).sum =
        (if need = 0 then a else 0) + (1 - p) * ((xs.drop need).sum) +
          p * ((xs.drop (need - 1)).sum) := by
  intro xs
  induction xs with
  | nil =>
    intro a need
    cases need with
    | zero => simp [convAux]
    | succ n => simp [convAux]
  | cons x xs ih =>
    intro a need
    cases need with
    | zero =>
      have h : (convAux p (x * p) xs).sum =
          x * p + (1 - p) * xs.sum + p * xs.sum := by
        simpa using ih (x * p) 0
      have hg : (List.drop 0 (convAux p a (x :: xs))).sum =
          x * (1 - p) + a + (convAux p (x * p) xs).sum := by
        simp [convAux]
      rw [hg, h]
      simp only [Nat.zero_sub, List.drop_zero, List.sum_cons, if_true]
      ring
    | succ n =>
      have hg : (List.drop (n + 1) (convAux p a (x :: xs))).sum =
          (List.drop n (convAux p (x * p) xs)).sum := by
        simp [convAux]
      rw [hg, ih (x * p) n,
          if_neg (by omega : ¬ n + 1 = 0)]
      cases n with
      | zero =>
        simp only [Nat.zero_sub, Nat.succ_sub_one, List.drop_zero,
          List.drop_succ_cons, List.sum_cons, if_true]
        try ring
      | succ m =>
        rw [if_neg (by omega : ¬ m + 1 = 0)]
        simp only [Nat.succ_sub_one, List.drop_succ_cons]
        try ring

theorem convStep_drop_sum (d : List ℚ) (p : ℚ) (need : ℕ) :
    ((convStep d p).drop need).sum =
      (1 - p) * ((d.drop need).sum) + p * ((d.drop (need - 1)).sum) := by
  unfold convStep
  rw [convStep_eq_aux, convAux_drop_sum]
  by_cases h0 : need = 0
  · rw [if_pos h0]; ring
  · rw [if_neg h0]; ring

theorem foldl_convStep_length :
    ∀ (ps : List ℚ) (d : List ℚ),
      (ps.foldl convStep d).length = d.length + ps.length := by
  intro ps
  induction ps with
  | nil => intro d; simp
  | cons p ps ih =>
    intro d
    rw [List.foldl_cons, ih, convStep_length]
    simp only [List.length_cons]
    omega

/-- The tail sum of the convolution distribution equals the mask
enumeration: `P(count of resistant missing classes ≥ need)`. -/
theorem distFold_drop_sum :
    ∀ (ps : List ℚ) (need : ℕ),
      (((ps.foldl convStep [1]).drop need).sum) = maskSumQ 0 need ps := by
  intro ps
  induction ps using List.reverseRecOn with
  | nil =>
    intro need
    cases need with
    | zero =>
      unfold maskSumQ
      simp [bitsCount, bitsProd]
    | succ n =>
      unfold maskSumQ
      simp [bitsCount, bitsProd]
  | append_singleton xs p ih =>
    intro need
    rw [List.foldl_append, List.foldl_cons, List.foldl_nil,
        convStep_drop_sum, ih need, ih (need - 1), maskSumQ_concat,
        maskSumQ_known_shift]

/-- **C6.** For every row, threshold, and common per-class prior
probabilities, the Bernoulli-convolution computation of
`P(resistant-class count ≥ threshold)` used by `mdr_probability` returns
exactly the value of the explicit power-set enumeration of
`_posterior_mdr_prob`: the convolution is an output-preserving
optimisation of the enumeration. -/
theorem mdr_probability_row_eq_posterior (row : List (String × Cell))
    (t : ℕ) (prior : String → ℚ)
    (hb : ∀ c, 0 ≤ prior c ∧ prior c ≤ 1) :
    mdr_probability_row row t prior = _posterior_mdr_prob row t prior := by
  simp only [mdr_probability_row, _posterior_mdr_prob]
  have hlen : (((missingOf row).map prior).foldl convStep [1]).length =
      1 + ((missingOf row).map prior).length := by
    rw [foldl_convStep_length]
    simp
  have hmaplen : ((missingOf row).map prior).length =
      (missingOf row).length := List.length_map _ _
  by_cases h1 : t ≤ knownPos row
  · rw [if_pos h1]
    have h0 : t - knownPos row = 0 := by omega
    rw [h0, if_pos (by omega : 0 < (((missingOf row).map prior).foldl
      convStep [1]).length)]
    rw [List.drop_zero]
    have := distFold_drop_sum ((missingOf row).map prior) 0
    rw [List.drop_zero] at this
    rw [this, maskSumQ_threshold_zero]
  · rw [if_neg h1]
    by_cases h2 : knownPos row + (missingOf row).length < t
    · rw [if_pos h2]
      rw [if_neg (by omega : ¬ t - knownPos row <
        (((missingOf row).map prior).foldl convStep [1]).length)]
    · rw [if_neg h2]
      rw [if_pos (by omega : t - knownPos row <
        (((missingOf row).map prior).foldl convStep [1]).length)]
      rw [distFold_drop_sum ((missingOf row).map prior) (t - knownPos row)]
      rw [posterior_sum_eq_maskSumQ row t prior]
      have hbps : ∀ p ∈ (missingOf row).map prior, 0 ≤ p ∧ p ≤ 1 := by
        intro p hp
        obtain ⟨c, -, rfl⟩ := List.mem_map.mp hp
        exact hb c
      have hbound := maskSumQ_bounds _ hbps (knownPos row) t
      rw [max_eq_left hbound.1, min_eq_left hbound.2]
      rw [maskSumQ_eq_zero_known (knownPos row) t]

/-- Closing the hypothesis of `mdr_probability_row_eq_posterior` at a
concrete instance: two known-resistant classes, two missing ones,
threshold 3, uniform priors `1/3`. -/
theorem mdr_probability_row_eq_posterior_witness :
    (∀ c : String, 0 ≤ (fun _ : String => (1:ℚ)/3) c ∧
      (fun _ : String => (1:ℚ)/3) c ≤ 1) ∧
    mdr_probability_row [("A", some true), ("B", some true), ("C", none),
        ("D", none)] 3 (fun _ => 1/3) =
      _posterior_mdr_prob [("A", some true), ("B", some true), ("C", none),
        ("D", none)] 3 (fun _ => 1/3) :=
  ⟨fun c => ⟨by norm_num, by norm_num⟩,
    mdr_probability_row_eq_posterior [("A", some true), ("B", some true),
      ("C", none), ("D", none)] 3 (fun _ => 1/3)
      (fun c => ⟨by norm_num, by norm_num⟩)⟩

/-! ## Hypergraph extraction (`hypergraph.py`, `extract_hyperedges`)

Counter keys (`frozenset`s of class names) are `Finset String`.
`Counter.most_common()` lists distinct patterns in descending count
order; the embedding realises it as a stable insertion sort over the
first-occurrence list of distinct patterns.  (CPython's tie order is
an implementation detail; no claim depends on it.) -/

/-- One output row of `extract_hyperedges`: `Hyperedge` display string,
`_set`, `Size`, `Count`, `Support`. -/
structure HEdgeRow where
  label : String
  pat : Finset String
  size : ℕ
  count : ℕ
  support : ℚ
deriving DecidableEq

/-- The set of classes with value exactly 1 in one isolate row. -/
def rowPattern (columns : List String) (row : String → Cell) : Finset String :=
  (columns.filter (fun c => decide (row c = some true))).toFinset

/-- Distinct elements of a list in first-occurrence order (the key order
of a Python `Counter` built by repeated insertion). -/
def firstOccs [DecidableEq α] (l : List α) : List α :=
  l.foldl (fun acc a => if a ∈ acc then acc else acc ++ [a]) []

/-- Stable descending insertion by a key: the new element goes before the
first strictly smaller key, after any equal keys. -/
def insertDescBy [LinearOrder β] (key : α → β) (x : α) : List α → List α
  | [] => [x]
  | y :: ys => if key y < key x then x :: y :: ys else y :: insertDescBy key x ys

/-- Stable descending sort by a key (insertion sort). -/
def sortDescBy [LinearOrder β] (key : α → β) : List α → List α
  | [] => []
  | x :: xs => insertDescBy key x (sortDescBy key xs)

/-- `Counter(pats).most_common()`: distinct patterns with their counts,
sorted by descending count. -/
def mostCommon (pats : List (Finset String)) : List (Finset String × ℕ) :=
  sortDescBy (fun pc => pc.2) ((firstOccs pats).map (fun q => (q, pats.count q)))

/-- `extract_hyperedges` over one class matrix: size-filter each isolate's
resistant set, count exact-set frequency, keep sets with support above
the threshold, and emit one row per retained set in `most_common` order. -/
def extract_hyperedges (columns : List String) (rows : List (String → Cell))
    (min_size max_size : ℕ) (min_support : ℚ) : List HEdgeRow :=
  let n := rows.length
  let pats := (rows.map (rowPattern columns)).filter
    (fun fs => decide (min_size ≤ fs.card ∧ fs.card ≤ max_size))
  let counts := mostCommon pats
  (counts.filter (fun pc => decide (min_support ≤ (pc.2 : ℚ) / (n : ℚ)))).map
    (fun pc => ⟨String.intercalate ", " (pc.1.sort (· ≤ ·)), pc.1,
                pc.1.card, pc.2, roundTo 4 ((pc.2 : ℚ) / (n : ℚ))⟩)

theorem mem_insertDescBy [LinearOrder β] (key : α → β) (x : α) :
    ∀ (l : List α) (z : α), z ∈ insertDescBy key x l → z = x ∨ z ∈ l := by
  intro l
  induction l with
  | nil => intro z hz; simpa [insertDescBy] using hz
  | cons y ys ih =>
    intro z hz
    unfold insertDescBy at hz
    split at hz
    · rcases List.mem_cons.mp hz with h | h
      · exact Or.inl h
      · exact Or.inr h
    · rcases List.mem_cons.mp hz with h | h
      · exact Or.inr (by simp [h])
      · rcases ih z h with h' | h'
        · exact Or.inl h'
        · exact Or.inr (List.mem_cons_of_mem _ h')

theorem sorted_insertDescBy [LinearOrder β] (key : α → β) (x : α) :
    ∀ (l : List α), List.Pairwise (fun a b => key b ≤ key a) l →
      List.Pairwise (fun a b => key b ≤ key a) (insertDescBy key x l) := by
  intro l
  induction l with
  | nil => intro _; simp [insertDescBy]
  | cons y ys ih =>
    intro hp
    obtain ⟨hy, hys⟩ := List.pairwise_cons.mp hp
    unfold insertDescBy
    split
    · rename_i hlt
      apply List.pairwise_cons.mpr
      refine ⟨?_, hp⟩
      intro z hz
      rcases List.mem_cons.mp hz with h | h
      · rw [h]; exact le_of_lt hlt
      · exact le_trans (hy z h) (le_of_lt hlt)
    · rename_i hge
      apply List.pairwise_cons.mpr
      constructor
      · intro z hz
        rcases mem_insertDescBy key x (ys) z hz with h | h
        · rw [h]; exact not_lt.mp hge
        · exact hy z h
      · exact ih hys

theorem sorted_sortDescBy [LinearOrder β] (key : α → β) :
    ∀ (l : List α), List.Pairwise (fun a b => key b ≤ key a) (sortDescBy key l) := by
  intro l
  induction l with
  | nil => simp [sortDescBy]
  | cons x xs ih => exact sorted_insertDescBy key x _ ih

theorem perm_insertDescBy [LinearOrder β] (key : α → β) (x : α) :
    ∀ (l : List α), (insertDescBy key x l).Perm (x :: l) := by
  intro l
  induction l with
  | nil => simp [insertDescBy]
  | cons y ys ih =>
    unfold insertDescBy
    split
    · exact List.Perm.refl _
    · exact List.Perm.trans (List.Perm.cons y ih) (List.Perm.swap x y ys)

theorem perm_sortDescBy [LinearOrder β] (key : α → β) :
    ∀ (l : List α), (sortDescBy key l).Perm l := by
  intro l
  induction l with
  | nil => simp [sortDescBy]
  | cons x xs ih =>
    exact List.Perm.trans (perm_insertDescBy key x _) (List.Perm.cons x ih)

theorem mem_firstOccs [DecidableEq α] {l : List α} {z : α}
    (hz : z ∈ firstOccs l) : z ∈ l := by
  have haux : ∀ (l : List α) (acc : List α), z ∈ l.foldl
      (fun acc a => if a ∈ acc then acc else acc ++ [a]) acc →
      z ∈ acc ∨ z ∈ l := by
    intro l
    induction l with
    | nil => intro acc h; exact Or.inl h
    | cons a as ih =>
      intro acc h
      rcases ih _ h with h' | h'
      · by_cases hmem : a ∈ acc
        · simp only [if_pos hmem] at h'
          exact Or.inl h'
        · simp only [if_neg hmem] at h'
          rcases List.mem_append.mp h' with h'' | h''
          · exact Or.inl h''
          · have hza : z = a := by simpa using h''
            exact Or.inr (hza ▸ List.mem_cons_self a as)
      · exact Or.inr (List.mem_cons_of_mem a h')
  rcases haux l [] hz with h | h
  · simp at h
  · exact h

/-- **C7, amended.** Every row of `extract_hyperedges` has its size within
`[min_size, max_size]` and equal to the pattern's cardinality; its `Count`
is the number of isolates whose resistant-class set equals the pattern;
the retention test `support ≥ min_support` is applied to the exact support
`Count / n`; the stored `Support` column is that exact support rounded to
4 decimal places (so it can differ from `Count / n`); and the rows are
sorted by descending `Count`. -/
theorem extract_hyperedges_row_props (columns : List String)
    (rows : List (String → Cell)) (min_size max_size : ℕ) (min_support : ℚ)
    (r : HEdgeRow)
    (hr : r ∈ extract_hyperedges columns rows min_size max_size min_support) :
    List.Pairwise (fun a b => b.count ≤ a.count)
      (extract_hyperedges columns rows min_size max_size min_support) ∧
    min_size ≤ r.size ∧ r.size ≤ max_size ∧ r.size = r.pat.card ∧
    r.count = (rows.map (rowPattern columns)).count r.pat ∧
    min_support ≤ (r.count : ℚ) / (rows.length : ℚ) ∧
    r.support = roundTo 4 ((r.count : ℚ) / (rows.length : ℚ)) := by
  simp only [extract_hyperedges] at hr ⊢
  constructor
  · apply List.Pairwise.map
    · intro a b hab
      exact hab
    · apply List.Pairwise.sublist (List.filter_sublist _)
      have := sorted_sortDescBy (fun pc : Finset String × ℕ => pc.2)
        ((firstOccs ((rows.map (rowPattern columns)).filter
          (fun fs => decide (min_size ≤ fs.card ∧ fs.card ≤ max_size)))).map
          (fun q => (q, ((rows.map (rowPattern columns)).filter
            (fun fs => decide (min_size ≤ fs.card ∧ fs.card ≤ max_size))).count q)))
      exact this
  · obtain ⟨pc, hpcf, hmk⟩ := List.mem_map.mp hr
    obtain ⟨hpcc, hφ⟩ := List.mem_filter.mp hpcf
    have hperm := perm_sortDescBy (fun pc : Finset String × ℕ => pc.2)
      ((firstOccs ((rows.map (rowPattern columns)).filter
        (fun fs => decide (min_size ≤ fs.card ∧ fs.card ≤ max_size)))).map
        (fun q => (q, ((rows.map (rowPattern columns)).filter
          (fun fs => decide (min_size ≤ fs.card ∧ fs.card ≤ max_size))).count q)))
    have hpcl : pc ∈ (firstOccs ((rows.map (rowPattern columns)).filter
        (fun fs => decide (min_size ≤ fs.card ∧ fs.card ≤ max_size)))).map
        (fun q => (q, ((rows.map (rowPattern columns)).filter
          (fun fs => decide (min_size ≤ fs.card ∧ fs.card ≤ max_size))).count q)) :=
      hperm.mem_iff.mp (by simpa [mostCommon] using hpcc)
    obtain ⟨q, hq, hpc_eq⟩ := List.mem_map.mp hpcl
    have hqpats := mem_firstOccs hq
    obtain ⟨-, hqsize⟩ := List.mem_filter.mp hqpats
    have hqsize' : min_size ≤ q.card ∧ q.card ≤ max_size :=
      of_decide_eq_true hqsize
    have hcount : ((rows.map (rowPattern columns)).filter
        (fun fs => decide (min_size ≤ fs.card ∧ fs.card ≤ max_size))).count q =
        (rows.map (rowPattern columns)).count q :=
      List.count_filter hqsize
    have hφ' : min_support ≤ (pc.2 : ℚ) / (rows.length : ℚ) :=
      of_decide_eq_true hφ
    subst hmk
    rw [← hpc_eq] at hφ' ⊢
    simp only at hφ' ⊢
    rw [hcount] at hφ' ⊢
    refine ⟨hqsize'.1, hqsize'.2, ?_, ?_, hφ', ?_⟩ <;> first | rfl | trivial

/-- Evaluation of `extract_hyperedges` at the concrete instance used by
the C7 counterexample and witness: three isolates over classes A and B,
one of which is resistant to both. -/
theorem extract_hyperedges_concrete :
    extract_hyperedges ["A", "B"]
        [fun _ => some true, fun _ => some false, fun _ => some false]
        2 6 0 =
      [⟨"A, B", {"A", "B"}, 2, 1, 3333/10000⟩] := by
  have hpats : (([fun _ => some true, fun _ => some false,
      fun _ => some false] : List (String → Cell)).map
        (rowPattern ["A", "B"])).filter
      (fun fs => decide (2 ≤ fs.card ∧ fs.card ≤ 6)) = [{"A", "B"}] := by
    decide
  have hmc : mostCommon [{"A", "B"}] = [({"A", "B"}, 1)] := by
    decide
  simp only [extract_hyperedges, hpats, hmc]
  have hlen : ([fun _ => some true, fun _ => some false,
      fun _ => some false] : List (String → Cell)).length = 3 := by decide
  rw [hlen]
  have hfil : ([({"A", "B"}, 1)] : List (Finset String × ℕ)).filter
      (fun pc => decide ((0:ℚ) ≤ (pc.2 : ℚ) / ((3:ℕ) : ℚ))) =
      [({"A", "B"}, 1)] := by
    rw [List.filter_eq_self]
    intro pc hpc
    rw [List.mem_singleton] at hpc
    subst hpc
    apply decide_eq_true
    norm_num
  rw [hfil, List.map_singleton]
  have hsort : Finset.sort (· ≤ ·) ({"A", "B"} : Finset String) =
      ["A", "B"] := by
    have h1 : ∀ b ∈ ({"B"} : Finset String), ("A" : String) ≤ b := by
      intro b hb
      rw [Finset.mem_singleton] at hb
      subst hb
      rw [String.le_iff_toList_le]
      decide
    have h2 : ("A" : String) ∉ ({"B"} : Finset String) := by decide
    rw [@Finset.sort_insert String (· ≤ ·) _ _ _ _ _ "A" {"B"} h1 h2,
        Finset.sort_singleton]
  rw [hsort]
  have hround : roundTo 4 (((1:ℕ) : ℚ) / ((3:ℕ) : ℚ)) = 3333/10000 := by
    have hq : ((1:ℕ) : ℚ) / ((3:ℕ) : ℚ) = 1/3 := by norm_num
    rw [hq]
    unfold roundTo rndHalfEven
    have hfloor : ⌊(1:ℚ)/3 * 10 ^ 4⌋ = 3333 := by
      rw [Int.floor_eq_iff]
      constructor <;> norm_num
    rw [hfloor, if_pos (by norm_num)]
    norm_num
  have hcard : ({"A", "B"} : Finset String).card = 2 := by decide
  have hlabel : String.intercalate ", " ["A", "B"] = "A, B" := by decide
  simp only [hround, hcard, hlabel]

/-- **C7, counterexample.** On three isolates of which exactly one is
resistant to the two classes A and B, `extract_hyperedges` (with
`min_size = 2`, `max_size = 6`, `min_support = 0`) returns one row whose
`Support` field is `round(1/3, 4) = 0.3333`, which is not equal to
`Count / total-isolate-count = 1/3`: the claim `Support = Count / total`
fails on the stored (rounded) column. -/
theorem extract_hyperedges_support_not_exact :
    ∃ r ∈ extract_hyperedges ["A", "B"]
        [fun _ => some true, fun _ => some false, fun _ => some false] 2 6 0,
      r.support ≠ (r.count : ℚ) /
        ((([fun _ => some true, fun _ => some false, fun _ => some false]
          : List (String → Cell)).length : ℕ) : ℚ) := by
  refine ⟨⟨"A, B", {"A", "B"}, 2, 1, 3333/10000⟩, ?_, ?_⟩
  · rw [extract_hyperedges_concrete]
    exact List.mem_singleton.mpr rfl
  · have hlen : ([fun _ => some true, fun _ => some false,
        fun _ => some false] : List (String → Cell)).length = 3 := by decide
    rw [hlen]
    norm_num

/-- Closing the hypothesis of `extract_hyperedges_row_props` at the
concrete instance evaluated in `extract_hyperedges_concrete`. -/
theorem extract_hyperedges_row_props_witness :
    (⟨"A, B", {"A", "B"}, 2, 1, 3333/10000⟩ : HEdgeRow) ∈
      extract_hyperedges ["A", "B"]
        [fun _ => some true, fun _ => some false, fun _ => some false]
        2 6 0 ∧
    (List.Pairwise (fun a b => b.count ≤ a.count)
      (extract_hyperedges ["A", "B"]
        [fun _ => some true, fun _ => some false, fun _ => some false]
        2 6 0) ∧
    2 ≤ (⟨"A, B", {"A", "B"}, 2, 1, 3333/10000⟩ : HEdgeRow).size ∧
    (⟨"A, B", {"A", "B"}, 2, 1, 3333/10000⟩ : HEdgeRow).size ≤ 6 ∧
    (⟨"A, B", {"A", "B"}, 2, 1, 3333/10000⟩ : HEdgeRow).size =
      (⟨"A, B", {"A", "B"}, 2, 1, 3333/10000⟩ : HEdgeRow).pat.card ∧
    (⟨"A, B", {"A", "B"}, 2, 1, 3333/10000⟩ : HEdgeRow).count =
      (([fun _ => some true, fun _ => some false, fun _ => some false]
        : List (String → Cell)).map (rowPattern ["A", "B"])).count
        (⟨"A, B", {"A", "B"}, 2, 1, 3333/10000⟩ : HEdgeRow).pat ∧
    (0:ℚ) ≤ ((⟨"A, B", {"A", "B"}, 2, 1, 3333/10000⟩ : HEdgeRow).count : ℚ) /
      ((([fun _ => some true, fun _ => some false, fun _ => some false]
        : List (String → Cell)).length : ℕ) : ℚ) ∧
    (⟨"A, B", {"A", "B"}, 2, 1, 3333/10000⟩ : HEdgeRow).support =
      roundTo 4 (((⟨"A, B", {"A", "B"}, 2, 1, 3333/10000⟩ : HEdgeRow).count : ℚ) /
        ((([fun _ => some true, fun _ => some false, fun _ => some false]
          : List (String → Cell)).length : ℕ) : ℚ))) :=
  have hmem : (⟨"A, B", {"A", "B"}, 2, 1, 3333/10000⟩ : HEdgeRow) ∈
      extract_hyperedges ["A", "B"]
        [fun _ => some true, fun _ => some false, fun _ => some false]
        2 6 0 := by
    rw [extract_hyperedges_concrete]
    exact List.mem_singleton.mpr rfl
  ⟨hmem, extract_hyperedges_row_props ["A", "B"]
    [fun _ => some true, fun _ => some false, fun _ => some false]
    2 6 0 ⟨"A, B", {"A", "B"}, 2, 1, 3333/10000⟩ hmem⟩

/-! ## Hypergraph centrality (`hypergraph.py`, `hypergraph_centrality`) -/

/-- One output row of `hypergraph_centrality`.  A `none` in a `*Norm`
field models a `*_Norm` column that the source never created (the
`if mx > 0` guard). -/
structure CentRow where
  cls : String
  degree : ℕ
  wdeg : ℚ
  swdeg : ℚ
  degNorm : Option ℚ
  wdegNorm : Option ℚ
  swdegNorm : Option ℚ
deriving DecidableEq

/-- Number of hyperedges containing class `c` (`deg[m] += 1`). -/
def degOf (hedges : List HEdgeRow) (c : String) : ℕ :=
  hedges.countP (fun r => decide (c ∈ r.pat))

/-- Support-weighted degree (`wd[m] += r["Support"]`). -/
def wdegOf (hedges : List HEdgeRow) (c : String) : ℚ :=
  ((hedges.filter (fun r => decide (c ∈ r.pat))).map (fun r => r.support)).sum

/-- Size-and-support-weighted degree (`swd[m] += r["Support"] * r["Size"]`). -/
def swdegOf (hedges : List HEdgeRow) (c : String) : ℚ :=
  ((hedges.filter (fun r => decide (c ∈ r.pat))).map
    (fun r => r.support * (r.size : ℚ))).sum

/-- Maximum of a list (`df[col].max()`), with a default for the empty
list (unreachable: `all_classes` is non-empty when it is used). -/
def maxOf [LinearOrder β] (dflt : β) : List β → β
  | [] => dflt
  | x :: xs => xs.foldl max x

/-- The data-frame rows before normalisation, sorted by descending
`Size_Weighted` (pandas' tie order is unspecified; the stable insertion
sort fixes one admissible order, and no property below depends on it). -/
def centBase (hedges : List HEdgeRow) (classes : List String) :
    List (String × ℕ × ℚ × ℚ) :=
  sortDescBy (fun q => q.2.2.2)
    (classes.map (fun c => (c, degOf hedges c, roundTo 4 (wdegOf hedges c),
      roundTo 4 (swdegOf hedges c))))

/-- Column maximum of `Degree` after sorting. -/
def mxDeg (hedges : List HEdgeRow) (classes : List String) : ℕ :=
  maxOf 0 ((centBase hedges classes).map (fun q => q.2.1))

/-- Column maximum of `Weighted_Degree` after sorting. -/
def mxWdeg (hedges : List HEdgeRow) (classes : List String) : ℚ :=
  maxOf 0 ((centBase hedges classes).map (fun q => q.2.2.1))

/-- Column maximum of `Size_Weighted` after sorting. -/
def mxSwdeg (hedges : List HEdgeRow) (classes : List String) : ℚ :=
  maxOf 0 ((centBase hedges classes).map (fun q => q.2.2.2))

/-- `hypergraph_centrality`: per-class degree, weighted degree and
size-weighted degree over the hyperedge rows, each `*_Norm` column added
only when the column maximum is positive. -/
def hypergraph_centrality (hedges : List HEdgeRow)
    (all_classes : List String) : List CentRow :=
  if all_classes = [] then []
  else
    (centBase hedges all_classes).map (fun q =>
      ⟨q.1, q.2.1, q.2.2.1, q.2.2.2,
       if 0 < mxDeg hedges all_classes then
         some (roundTo 4 ((q.2.1 : ℚ) / (mxDeg hedges all_classes : ℚ)))
       else none,
       if 0 < mxWdeg hedges all_classes then
         some (roundTo 4 (q.2.2.1 / mxWdeg hedges all_classes))
       else none,
       if 0 < mxSwdeg hedges all_classes then
         some (roundTo 4 (q.2.2.2 / mxSwdeg hedges all_classes))
       else none⟩)

theorem le_foldl_max [LinearOrder β] :
    ∀ (l : List β) (i : β), i ≤ l.foldl max i := by
  intro l
  induction l with
  | nil => intro i; exact le_refl i
  | cons y ys ih =>
    intro i
    exact le_trans (le_max_left i y) (ih (max i y))

theorem mem_le_foldl_max [LinearOrder β] :
    ∀ (l : List β) (i x : β), x ∈ l → x ≤ l.foldl max i := by
  intro l
  induction l with
  | nil => intro i x hx; exact absurd hx (List.not_mem_nil x)
  | cons y ys ih =>
    intro i x hx
    rcases List.mem_cons.mp hx with h | h
    · subst h
      exact le_trans (le_max_right i x) (le_foldl_max ys (max i x))
    · exact ih (max i y) x h

theorem le_maxOf [LinearOrder β] (dflt : β) {l : List β} {x : β}
    (hx : x ∈ l) : x ≤ maxOf dflt l := by
  cases l with
  | nil => exact absurd hx (List.not_mem_nil x)
  | cons y ys =>
    rcases List.mem_cons.mp hx with h | h
    · subst h
      exact le_foldl_max ys x
    · exact mem_le_foldl_max ys y x h

theorem roundTo_zero (k : ℕ) : roundTo k 0 = 0 := by
  unfold roundTo rndHalfEven
  rw [show (0:ℚ) * 10 ^ k = ((0:ℤ) : ℚ) by norm_num, Int.floor_intCast]
  rw [if_pos (by norm_num)]
  norm_num

theorem wdegOf_nonneg (hedges : List HEdgeRow) (c : String)
    (hsup : ∀ h ∈ hedges, 0 ≤ h.support) : 0 ≤ wdegOf hedges c := by
  apply List.sum_nonneg
  intro x hx
  obtain ⟨h, hh, rfl⟩ := List.mem_map.mp hx
  exact hsup h (List.mem_of_mem_filter hh)

theorem swdegOf_nonneg (hedges : List HEdgeRow) (c : String)
    (hsup : ∀ h ∈ hedges, 0 ≤ h.support) : 0 ≤ swdegOf hedges c := by
  apply List.sum_nonneg
  intro x hx
  obtain ⟨h, hh, rfl⟩ := List.mem_map.mp hx
  exact mul_nonneg (hsup h (List.mem_of_mem_filter hh)) (by positivity)

/-- **C8, amended.** For a non-empty class universe and non-negative
supports, `hypergraph_centrality` returns exactly one row per class
(classes in no hyperedge get all-zero raw scores, not omitted); each of
the three measures is divided by its column maximum and the resulting
normalised values lie in `[0, 1]`; but a `*_Norm` column is only added
when that maximum is positive — when the maximum is 0 the column is
omitted entirely (`none`), not set to 0. -/
theorem hypergraph_centrality_props (hedges : List HEdgeRow)
    (classes : List String) (hne : classes ≠ [])
    (hsup : ∀ h ∈ hedges, 0 ≤ h.support) :
    ((hypergraph_centrality hedges classes).map (fun r => r.cls)).Perm
      classes ∧
    ∀ r ∈ hypergraph_centrality hedges classes,
      r.degree = degOf hedges r.cls ∧
      r.wdeg = roundTo 4 (wdegOf hedges r.cls) ∧
      r.swdeg = roundTo 4 (swdegOf hedges r.cls) ∧
      ((∀ h ∈ hedges, r.cls ∉ h.pat) →
        r.degree = 0 ∧ r.wdeg = 0 ∧ r.swdeg = 0) ∧
      (r.degNorm = if 0 < mxDeg hedges classes then
        some (roundTo 4 ((r.degree : ℚ) / (mxDeg hedges classes : ℚ)))
        else none) ∧
      (r.wdegNorm = if 0 < mxWdeg hedges classes then
        some (roundTo 4 (r.wdeg / mxWdeg hedges classes)) else none) ∧
      (r.swdegNorm = if 0 < mxSwdeg hedges classes then
        some (roundTo 4 (r.swdeg / mxSwdeg hedges classes)) else none) ∧
      (∀ v, r.degNorm = some v → 0 ≤ v ∧ v ≤ 1) ∧
      (∀ v, r.wdegNorm = some v → 0 ≤ v ∧ v ≤ 1) ∧
      (∀ v, r.swdegNorm = some v → 0 ≤ v ∧ v ≤ 1) := by
  unfold hypergraph_centrality
  rw [if_neg hne]
  constructor
  · rw [List.map_map]
    have h1 : ((centBase hedges classes).map
        (fun q : String × ℕ × ℚ × ℚ => q.1)).Perm
        ((classes.map (fun c => (c, degOf hedges c,
          roundTo 4 (wdegOf hedges c), roundTo 4 (swdegOf hedges c)))).map
          (fun q : String × ℕ × ℚ × ℚ => q.1)) :=
      List.Perm.map _ (perm_sortDescBy _ _)
    have h2 : ((classes.map (fun c => (c, degOf hedges c,
        roundTo 4 (wdegOf hedges c), roundTo 4 (swdegOf hedges c)))).map
          (fun q : String × ℕ × ℚ × ℚ => q.1)) = classes := by
      rw [List.map_map]
      exact List.map_id' classes
    exact (h2 ▸ h1 : _)
  · intro r hr
    obtain ⟨q, hq, hmk⟩ := List.mem_map.mp hr
    have hqbase : q ∈ (classes.map (fun c => (c, degOf hedges c,
        roundTo 4 (wdegOf hedges c), roundTo 4 (swdegOf hedges c)))) :=
      (perm_sortDescBy _ _).mem_iff.mp hq
    obtain ⟨c, hc, hq_eq⟩ := List.mem_map.mp hqbase
    subst hmk
    subst hq_eq
    refine ⟨rfl, rfl, rfl, ?_, rfl, rfl, rfl, ?_, ?_, ?_⟩
    · intro hnone
      refine ⟨?_, ?_, ?_⟩
      · exact List.countP_eq_zero.mpr (fun h hh => by
          simpa using hnone h hh)
      · have hfil : hedges.filter (fun h => decide (c ∈ h.pat)) = [] :=
          List.filter_eq_nil_iff.mpr (fun h hh => by simpa using hnone h hh)
        unfold wdegOf
        rw [hfil]
        simpa using roundTo_zero 4
      · have hfil : hedges.filter (fun h => decide (c ∈ h.pat)) = [] :=
          List.filter_eq_nil_iff.mpr (fun h hh => by simpa using hnone h hh)
        unfold swdegOf
        rw [hfil]
        simpa using roundTo_zero 4
    · intro v hv
      by_cases hmx : 0 < mxDeg hedges classes
      · rw [if_pos hmx] at hv
        have hveq : v = roundTo 4 ((degOf hedges c : ℚ) /
            (mxDeg hedges classes : ℚ)) := (Option.some.inj hv).symm
        subst hveq
        have hmem : degOf hedges c ∈ (centBase hedges classes).map
            (fun q : String × ℕ × ℚ × ℚ => q.2.1) :=
          List.mem_map_of_mem _ hq
        have hle : degOf hedges c ≤ mxDeg hedges classes := le_maxOf 0 hmem
        have hq0 : (0:ℚ) ≤ (degOf hedges c : ℚ) / (mxDeg hedges classes : ℚ) :=
          div_nonneg (by positivity) (by positivity)
        have hq1 : (degOf hedges c : ℚ) / (mxDeg hedges classes : ℚ) ≤ 1 := by
          rw [div_le_one (by exact_mod_cast hmx)]
          exact_mod_cast hle
        exact ⟨roundTo_nonneg 4 hq0, roundTo_le_one 4 hq1⟩
      · rw [if_neg hmx] at hv
        cases hv
    · intro v hv
      by_cases hmx : 0 < mxWdeg hedges classes
      · rw [if_pos hmx] at hv
        have hveq : v = roundTo 4 (roundTo 4 (wdegOf hedges c) /
            mxWdeg hedges classes) := (Option.some.inj hv).symm
        subst hveq
        have hw0 : 0 ≤ roundTo 4 (wdegOf hedges c) :=
          roundTo_nonneg 4 (wdegOf_nonneg hedges c hsup)
        have hmem : roundTo 4 (wdegOf hedges c) ∈
            (centBase hedges classes).map
            (fun q : String × ℕ × ℚ × ℚ => q.2.2.1) :=
          List.mem_map_of_mem _ hq
        have hle : roundTo 4 (wdegOf hedges c) ≤ mxWdeg hedges classes :=
          le_maxOf 0 hmem
        have hq0 : (0:ℚ) ≤ roundTo 4 (wdegOf hedges c) /
            mxWdeg hedges classes := div_nonneg hw0 (le_of_lt hmx)
        have hq1 : roundTo 4 (wdegOf hedges c) / mxWdeg hedges classes ≤ 1 := by
          rw [div_le_one hmx]
          exact hle
        exact ⟨roundTo_nonneg 4 hq0, roundTo_le_one 4 hq1⟩
      · rw [if_neg hmx] at hv
        cases hv
    · intro v hv
      by_cases hmx : 0 < mxSwdeg hedges classes
      · rw [if_pos hmx] at hv
        have hveq : v = roundTo 4 (roundTo 4 (swdegOf hedges c) /
            mxSwdeg hedges classes) := (Option.some.inj hv).symm
        subst hveq
        have hw0 : 0 ≤ roundTo 4 (swdegOf hedges c) :=
          roundTo_nonneg 4 (swdegOf_nonneg hedges c hsup)
        have hmem : roundTo 4 (swdegOf hedges c) ∈
            (centBase hedges classes).map
            (fun q : String × ℕ × ℚ × ℚ => q.2.2.2) :=
          List.mem_map_of_mem _ hq
        have hle : roundTo 4 (swdegOf hedges c) ≤ mxSwdeg hedges classes :=
          le_maxOf 0 hmem
        have hq0 : (0:ℚ) ≤ roundTo 4 (swdegOf hedges c) /
            mxSwdeg hedges classes := div_nonneg hw0 (le_of_lt hmx)
        have hq1 : roundTo 4 (swdegOf hedges c) / mxSwdeg hedges classes ≤ 1 := by
          rw [div_le_one hmx]
          exact hle
        exact ⟨roundTo_nonneg 4 hq0, roundTo_le_one 4 hq1⟩
      · rw [if_neg hmx] at hv
        cases hv

/-- **C8, counterexample.** With no hyperedges and universe `["A"]`, every
measure's maximum is 0, and the returned row carries *no* `Degree_Norm`
value at all (`none`) — the source only creates a `*_Norm` column when
`mx > 0` — rather than the normalised value 0 that the claim promises. -/
theorem hypergraph_centrality_norm_omitted :
    (hypergraph_centrality [] ["A"]).map (fun r => r.degNorm) = [none] ∧
    (none : Option ℚ) ≠ some 0 := by
  constructor
  · have hbase : centBase [] ["A"] = [("A", 0, roundTo 4 0, roundTo 4 0)] := by
      unfold centBase degOf wdegOf swdegOf
      simp [sortDescBy, insertDescBy]
    have hmx : mxDeg [] ["A"] = 0 := by
      unfold mxDeg
      rw [hbase]
      simp [maxOf]
    unfold hypergraph_centrality
    rw [if_neg (by decide : ¬ (["A"] : List String) = [])]
    rw [hbase, hmx]
    simp
  · decide

/-- Closing the hypotheses of `hypergraph_centrality_props` at a concrete
instance: one hyperedge `{A, B}` and universe `["A", "C"]`. -/
theorem hypergraph_centrality_props_witness :
    (["A", "C"] : List String) ≠ [] ∧
    (∀ h ∈ [(⟨"A, B", {"A", "B"}, 2, 1, 3333/10000⟩ : HEdgeRow)],
      0 ≤ h.support) ∧
    (((hypergraph_centrality [⟨"A, B", {"A", "B"}, 2, 1, 3333/10000⟩]
        ["A", "C"]).map (fun r => r.cls)).Perm ["A", "C"] ∧
      ∀ r ∈ hypergraph_centrality [⟨"A, B", {"A", "B"}, 2, 1, 3333/10000⟩]
          ["A", "C"],
        r.degree = degOf [⟨"A, B", {"A", "B"}, 2, 1, 3333/10000⟩] r.cls ∧
        r.wdeg = roundTo 4 (wdegOf [⟨"A, B", {"A", "B"}, 2, 1, 3333/10000⟩]
          r.cls) ∧
        r.swdeg = roundTo 4 (swdegOf [⟨"A, B", {"A", "B"}, 2, 1, 3333/10000⟩]
          r.cls) ∧
        ((∀ h ∈ [(⟨"A, B", {"A", "B"}, 2, 1, 3333/10000⟩ : HEdgeRow)],
          r.cls ∉ h.pat) → r.degree = 0 ∧ r.wdeg = 0 ∧ r.swdeg = 0) ∧
        (r.degNorm = if 0 < mxDeg [⟨"A, B", {"A", "B"}, 2, 1, 3333/10000⟩]
            ["A", "C"] then
          some (roundTo 4 ((r.degree : ℚ) /
            (mxDeg [⟨"A, B", {"A", "B"}, 2, 1, 3333/10000⟩] ["A", "C"] : ℚ)))
          else none) ∧
        (r.wdegNorm = if 0 < mxWdeg [⟨"A, B", {"A", "B"}, 2, 1, 3333/10000⟩]
            ["A", "C"] then
          some (roundTo 4 (r.wdeg /
            mxWdeg [⟨"A, B", {"A", "B"}, 2, 1, 3333/10000⟩] ["A", "C"]))
          else none) ∧
        (r.swdegNorm = if 0 < mxSwdeg [⟨"A, B", {"A", "B"}, 2, 1, 3333/10000⟩]
            ["A", "C"] then
          some (roundTo 4 (r.swdeg /
            mxSwdeg [⟨"A, B", {"A", "B"}, 2, 1, 3333/10000⟩] ["A", "C"]))
          else none) ∧
        (∀ v, r.degNorm = some v → 0 ≤ v ∧ v ≤ 1) ∧
        (∀ v, r.wdegNorm = some v → 0 ≤ v ∧ v ≤ 1) ∧
        (∀ v, r.swdegNorm = some v → 0 ≤ v ∧ v ≤ 1)) :=
  ⟨by decide,
   fun h hh => by
     rw [List.mem_singleton] at hh
     subst hh
     norm_num,
   hypergraph_centrality_props [⟨"A, B", {"A", "B"}, 2, 1, 3333/10000⟩]
     ["A", "C"] (by decide)
     (fun h hh => by
       rw [List.mem_singleton] at hh
       subst hh
       norm_num)⟩

/-! ## Conditional independence testing (`discovery.py`, `_ci_test`)

The discovery module operates on binary data (module docstring: "binary
AMR data"), so a data row is `String → Bool`.  `pd.crosstab` of two
binary columns has shape (2, 2) exactly when both columns take both
values on the rows in scope; its cells, with sorted labels 0 < 1, are the
four joint counts `(a, b, c, d) = (n₀₀, n₀₁, n₁₀, n₁₁)`. -/

/-- A row of the binary data frame of the discovery module. -/
abbrev BRow := String → Bool

/-- Oracles for the scipy calls of `_ci_test`: `fisher a b c d` is the
two-sided Fisher exact p-value of the 2×2 table, `chi2` the
`chi2_contingency` p-value of the 2×2 table, `chi2gen` the
`chi2_contingency` p-value of a non-2×2 table given the four joint
counts (`none` models a raised exception), and `chi2cdf` the CDF of the
chi-squared distribution with one degree of freedom. -/
structure PyStats where
  fisher : ℕ → ℕ → ℕ → ℕ → ℚ
  chi2 : ℕ → ℕ → ℕ → ℕ → ℚ
  chi2gen : ℕ → ℕ → ℕ → ℕ → Option ℚ
  chi2cdf : ℚ → ℚ

/-- Joint counts of the crosstab of columns `i` and `j`. -/
def cells (rows : List BRow) (i j : String) : ℕ × ℕ × ℕ × ℕ :=
  (rows.countP (fun r => !r i && !r j),
   rows.countP (fun r => !r i && r j),
   rows.countP (fun r => r i && !r j),
   rows.countP (fun r => r i && r j))

/-- `tab.shape == (2, 2)`: both columns take both values. -/
def shape2x2 (rows : List BRow) (i j : String) : Bool :=
  rows.any (fun r => r i) && rows.any (fun r => !r i) &&
    rows.any (fun r => r j) && rows.any (fun r => !r j)

/-- `df.groupby(key)` as a list of groups.  The groups are listed in
first-occurrence order of their keys rather than pandas' sorted key
order; every use below folds a commutative sum over the groups, for
which the group order is immaterial. -/
def groupsBy [DecidableEq K] (key : α → K) (rows : List α) : List (List α) :=
  ((rows.map key).dedup).map (fun k => rows.filter (fun r => decide (key r = k)))

/-- The CMH contribution of one stratum `g`:
`num += a - (a+b)(a+c)/n` and `den += (a+b)(c+d)(a+c)(b+d)/(n²(n-1))`. -/
def cmhContrib (i j : String) (acc : ℚ × ℚ) (g : List BRow) : ℚ × ℚ :=
  let q := cells g i j
  let a : ℚ := q.1
  let b : ℚ := q.2.1
  let c : ℚ := q.2.2.1
  let d : ℚ := q.2.2.2
  let n := a + b + c + d
  (acc.1 + (a - (a + b) * (a + c) / n),
   acc.2 + (a + b) * (c + d) * (a + c) * (b + d) / (n ^ 2 * (n - 1)))

/-- Size of a stratum's table, `n = a + b + c + d`, as a rational. -/
def cmhN (i j : String) (g : List BRow) : ℚ :=
  ((cells g i j).1 : ℚ) + ((cells g i j).2.1 : ℚ) +
    ((cells g i j).2.2.1 : ℚ) + ((cells g i j).2.2.2 : ℚ)

/-- The accumulated CMH numerator and denominator of `_ci_test`:
strata with a non-2×2 table (`continue`) or fewer than two observations
(`continue`) contribute nothing. -/
def cmhSums (rows : List BRow) (i j : String) (S : List String) : ℚ × ℚ :=
  (groupsBy (fun r => S.map r) rows).foldl (fun acc g =>
    if shape2x2 g i j then
      if cmhN i j g < 2 then acc else cmhContrib i j acc g
    else acc) (0, 0)

/-- A stratum that is neither non-2×2 nor too small. -/
def cmhGood (i j : String) (g : List BRow) : Bool :=
  shape2x2 g i j && decide (¬ cmhN i j g < 2)

/-- The CMH numerator/denominator computed over only the valid strata:
used to state that degenerate strata are silently skipped. -/
def cmhSumsValid (rows : List BRow) (i j : String) (S : List String) : ℚ × ℚ :=
  ((groupsBy (fun r => S.map r) rows).filter (cmhGood i j)).foldl
    (cmhContrib i j) (0, 0)

/-- `_ci_test`: Fisher/chi-squared on the unconditional 2×2 table (exact
test when an expected cell count is below 5), `p = 1.0` when a malformed
table makes `chi2_contingency` raise, the stratified CMH statistic
otherwise, declaring independence with `p = 1.0` when the pooled
denominator is non-positive.  Returns `(p > alpha, p)`. -/
def _ci_test (st : PyStats) (rows : List BRow) (i j : String)
    (S : List String) (alpha : ℚ) : Bool × ℚ :=
  if S = [] then
    let q := cells rows i j
    if shape2x2 rows i j then
      let n := q.1 + q.2.1 + q.2.2.1 + q.2.2.2
      let expLow := (q.1 + q.2.1) * (q.1 + q.2.2.1) < 5 * n ∨
        (q.1 + q.2.1) * (q.2.1 + q.2.2.2) < 5 * n ∨
        (q.2.2.1 + q.2.2.2) * (q.1 + q.2.2.1) < 5 * n ∨
        (q.2.2.1 + q.2.2.2) * (q.2.1 + q.2.2.2) < 5 * n
      let p := if expLow then st.fisher q.1 q.2.1 q.2.2.1 q.2.2.2
        else st.chi2 q.1 q.2.1 q.2.2.1 q.2.2.2
      (if alpha < p then true else false, p)
    else
      let p := match st.chi2gen q.1 q.2.1 q.2.2.1 q.2.2.2 with
        | some p => p
        | none => 1
      (if alpha < p then true else false, p)
  else
    let nd := cmhSums rows i j S
    if nd.2 ≤ 0 then (true, 1)
    else
      let stat := nd.1 ^ 2 / nd.2
      let p := 1 - st.chi2cdf stat
      (if alpha < p then true else false, p)

/-! ## PC skeleton learner, edge-removal phase (`discovery.py`,
`pc_skeleton`)

The graph is the current undirected edge list in insertion order
(`networkx` preserves insertion order for nodes, edges and adjacency).
The conditioning pool is built by the source expression
`set(G.neighbors(u)) | set(G.neighbors(v)) - {u, v}`; since `-` binds
tighter than `|` in Python this is `N(u) ∪ (N(v) \ {u, v})`
(`poolCode`), not the `(N(u) ∪ N(v)) \ {u, v}` of the specification
(`poolSpec`).  Iterating a Python `set` of strings has no
language-defined order, so the embedding passes the candidate pool
through an explicit ordering function `ord` applied to the canonical
(first-occurrence) pool listing.  The v-structure orientation phase is
not embedded: the claims under study concern the edge-removal phase and
its detail table. -/

/-- `itertools.combinations(l, 2)` — the initial complete edge list. -/
def pairsOf : List String → List (String × String)
  | [] => []
  | x :: xs => xs.map (fun y => (x, y)) ++ pairsOf xs

/-- Neighbours of `u` in the current edge list. -/
def neighbors (es : List (String × String)) (u : String) : List String :=
  es.filterMap (fun e =>
    if e.1 = u then some e.2 else if e.2 = u then some e.1 else none)

/-- Contents of the source's conditioning pool
`set(G.neighbors(u)) | set(G.neighbors(v)) - {u, v}` =
`N(u) ∪ (N(v) \ {u, v})`, as a duplicate-free list. -/
def poolCode (es : List (String × String)) (u v : String) : List String :=
  (neighbors es u ++
    (neighbors es v).filter (fun x => decide (¬ (x = u ∨ x = v)))).dedup

/-- Contents of the specification's conditioning pool
`(N(u) ∪ N(v)) \ {u, v}`, as a duplicate-free list. -/
def poolSpec (es : List (String × String)) (u v : String) : List String :=
  ((neighbors es u ++ neighbors es v).filter
    (fun x => decide (¬ (x = u ∨ x = v)))).dedup

/-- `itertools.combinations(l, n)`: all size-`n` sublists of `l`, in the
generator's order. -/
def combos : ℕ → List α → List (List α)
  | 0, _ => [[]]
  | _ + 1, [] => []
  | n + 1, x :: xs => (combos n xs).map (fun S => x :: S) ++ combos (n + 1) xs

/-- One row of the `details` table of `pc_skeleton`. -/
structure DetailRow where
  node1 : String
  node2 : String
  removed : Bool
  condSet : String
  p : ℚ
  condSize : ℤ
deriving DecidableEq

/-- `",".join(S) if S else "∅"`. -/
def joinCond (S : List String) : String :=
  if S = [] then "∅" else String.intercalate "," S

/-- Processing of one edge at one conditioning size: skip when the pool
is smaller than `sz`, otherwise scan the size-`sz` subsets in order and
stop at the first independence; report whether the edge is marked for
removal together with its detail rows. -/
def edgeStep (st : PyStats) (rows : List BRow) (alpha : ℚ)
    (ord : String → String → List String → List String)
    (es : List (String × String)) (sz : ℕ) (e : String × String) :
    Bool × List DetailRow :=
  let pool := poolCode es e.1 e.2
  let listing := ord e.1 e.2 pool
  if listing.length < sz then (false, [])
  else
    match (combos sz listing).find?
        (fun S => (_ci_test st rows e.1 e.2 S alpha).1) with
    | some S => (true, [⟨e.1, e.2, true, joinCond S,
        roundTo 4 (_ci_test st rows e.1 e.2 S alpha).2, (sz : ℤ)⟩])
    | none =>
      if sz = 0 then
        (false, [⟨e.1, e.2, false, "—",
          roundTo 4 (_ci_test st rows e.1 e.2 [] alpha).2, -1⟩])
      else (false, [])

/-- One conditioning-size phase: every currently-present edge is scanned
against the snapshot `es`, detail rows are appended in edge order, and
the edges marked for removal are removed only at the end of the phase. -/
def phaseStep (st : PyStats) (rows : List BRow) (alpha : ℚ)
    (ord : String → String → List String → List String)
    (acc : List (String × String) × List DetailRow) (sz : ℕ) :
    List (String × String) × List DetailRow :=
  (acc.1.filter (fun e => !(edgeStep st rows alpha ord acc.1 sz e).1),
   acc.2 ++ (acc.1.map (fun e => (edgeStep st rows alpha ord acc.1 sz e).2)).flatten)

/-- Phase 1 of `pc_skeleton`: edge removal for conditioning sizes
`0, 1, …, max_cond` starting from the complete graph. -/
def pc_skeleton_phase1 (st : PyStats) (rows : List BRow)
    (features : List String) (alpha : ℚ) (maxCond : ℕ)
    (ord : String → String → List String → List String) :
    List (String × String) × List DetailRow :=
  (List.range (maxCond + 1)).foldl (phaseStep st rows alpha ord)
    (pairsOf features, [])

/-- The identity pool ordering (one admissible iteration order of the
Python set). -/
def ordId : String → String → List String → List String := fun _ _ l => l

/-- A trivial oracle instantiation for concrete runs: every scipy
p-value is 0 and the chi-squared CDF is identically 0. -/
def st0 : PyStats := ⟨fun _ _ _ _ => 0, fun _ _ _ _ => 0,
  fun _ _ _ _ => some 0, fun _ => 0⟩

/-- **C1** (demonstrating the code bug at the failing input).  On the
complete graph over `["A", "B", "C"]`, the source's conditioning pool for
the edge `(A, B)` contains the endpoint `B` itself — because `-` binds
tighter than `|`, the pool is `N(u) ∪ (N(v) \ {u, v})` instead of the
intended `(N(u) ∪ N(v)) \ {u, v}` — whereas the specification's pool does
not.  Conditioning on the endpoint `B` makes every CMH stratum constant
in `B`, hence non-2×2, so the test degenerates to `(True, 1.0)` and the
edge is removed; consequently the whole skeleton collapses: running the
edge-removal phase with `max_cond = 1` on two distinct binary rows
removes every edge even though every unconditional test keeps them. -/
theorem pc_skeleton_pool_keeps_endpoint :
    "B" ∈ poolCode (pairsOf ["A", "B", "C"]) "A" "B" ∧
    "B" ∉ poolSpec (pairsOf ["A", "B", "C"]) "A" "B" ∧
    _ci_test st0 [fun _ => false, fun _ => true] "A" "B" ["B"] 2 =
      (true, 1) ∧
    (pc_skeleton_phase1 st0 [fun _ => false, fun _ => true]
      ["A", "B", "C"] 2 1 ordId).1 = [] := by
  refine ⟨by decide, by decide, by decide, by decide⟩

/-- A second admissible iteration order of the conditioning-pool set:
identical to `ordId` except that the pool of the edge `(A, B)` is
listed in reverse. -/
def ordSwap : String → String → List String → List String :=
  fun u v l => if u = "A" ∧ v = "B" then l.reverse else l

/-- **C2, counterexample.** Two runs of the edge-removal phase on the
same data, significance level and maximum conditioning size, differing
only in the iteration order of the Python set holding the conditioning
pool (which hash randomisation does not fix across processes), produce
different detail tables: the `Cond_Set` recorded for the removal of edge
`(A, B)` is `"B"` under one order and `"C"` under the other.  The
enumeration order is therefore not fixed solely by the external
feature-name ordering, and the output is not reproducible
bit-for-bit. -/
theorem pc_skeleton_details_order_dependent :
    ((pc_skeleton_phase1 st0 [fun _ => false, fun _ => true]
        ["A", "B", "C"] 2 1 ordId).2.map (fun d => d.condSet)) ≠
      ((pc_skeleton_phase1 st0 [fun _ => false, fun _ => true]
        ["A", "B", "C"] 2 1 ordSwap).2.map (fun d => d.condSet)) := by
  decide

theorem foldl_guard_eq_foldl_filter (p : α → Bool) (f : β → α → β) :
    ∀ (l : List α) (init : β),
      l.foldl (fun acc x => if p x then f acc x else acc) init =
        (l.filter p).foldl f init := by
  intro l
  induction l with
  | nil => intro init; rfl
  | cons x xs ih =>
    intro init
    by_cases hp : p x
    · rw [List.foldl_cons, if_pos hp, List.filter_cons_of_pos hp,
          List.foldl_cons, ih]
    · rw [List.foldl_cons, if_neg hp,
          List.filter_cons_of_neg (by simpa using hp), ih]

theorem cmhSums_eq_valid (rows : List BRow) (i j : String) (S : List String) :
    cmhSums rows i j S = cmhSumsValid rows i j S := by
  unfold cmhSums cmhSumsValid
  have hfun : (fun (acc : ℚ × ℚ) g => if shape2x2 g i j then
      if cmhN i j g < 2 then acc else cmhContrib i j acc g else acc) =
      (fun acc g => if cmhGood i j g then cmhContrib i j acc g else acc) := by
    funext acc g
    unfold cmhGood
    by_cases hs : shape2x2 g i j
    · by_cases hn : cmhN i j g < 2
      · rw [if_pos hs, if_pos hn, if_neg (by simp [hs, hn])]
      · rw [if_pos hs, if_neg hn, if_pos (by simp [hs, hn])]
    · rw [if_neg hs, if_neg (by simp [hs])]
  rw [hfun, foldl_guard_eq_foldl_filter]

/-- **C4.** `_ci_test` degrades gracefully: with a non-empty conditioning
set and a non-positive pooled CMH denominator it returns exactly
`(independent = True, p = 1.0)`; in the unconditional case a non-2×2
table on which `chi2_contingency` raises yields `p = 1.0`; degenerate
strata (non-2×2 table, or size below 2) are silently skipped — the pooled
numerator and denominator equal those computed over only the valid
strata; and in every case the returned decision satisfies
`independent ↔ p > α` (for a significance level `α < 1`). -/
theorem ci_test_props (st : PyStats) (rows : List BRow) (i j : String)
    (S : List String) (alpha : ℚ) (halpha : alpha < 1) :
    (S ≠ [] → (cmhSums rows i j S).2 ≤ 0 →
      _ci_test st rows i j S alpha = (true, 1)) ∧
    (S = [] → shape2x2 rows i j = false →
      st.chi2gen (cells rows i j).1 (cells rows i j).2.1
        (cells rows i j).2.2.1 (cells rows i j).2.2.2 = none →
      (_ci_test st rows i j S alpha).2 = 1) ∧
    cmhSums rows i j S = cmhSumsValid rows i j S ∧
    ((_ci_test st rows i j S alpha).1 = true ↔
      alpha < (_ci_test st rows i j S alpha).2) := by
  refine ⟨?_, ?_, cmhSums_eq_valid rows i j S, ?_⟩
  · intro hS hden
    unfold _ci_test
    rw [if_neg hS, if_pos hden]
  · intro hS hshape hgen
    subst hS
    unfold _ci_test
    rw [if_pos rfl, if_neg (by simp [hshape]), hgen]
  · unfold _ci_test
    by_cases hS : S = []
    · rw [if_pos hS]
      by_cases hshape : shape2x2 rows i j
      · rw [if_pos hshape]
        simp only
        split <;> simp_all
      · rw [if_neg hshape]
        simp only
        split <;> simp_all
    · rw [if_neg hS]
      by_cases hden : (cmhSums rows i j S).2 ≤ 0
      · rw [if_pos hden]
        simpa using halpha
      · rw [if_neg hden]
        simp only
        split <;> simp_all

/-- Closing the hypothesis of `ci_test_props` at a concrete instance:
significance level `1/2`, the trivial oracle, the two-row data set. -/
theorem ci_test_props_witness :
    (1:ℚ)/2 < 1 ∧
    ((["B"] : List String) ≠ [] →
      (cmhSums [fun _ => false, fun _ => true] "A" "B" ["B"]).2 ≤ 0 →
      _ci_test st0 [fun _ => false, fun _ => true] "A" "B" ["B"] (1/2) =
        (true, 1)) ∧
    ((["B"] : List String) = [] →
      shape2x2 [fun _ => false, fun _ => true] "A" "B" = false →
      st0.chi2gen (cells [fun _ => false, fun _ => true] "A" "B").1
        (cells [fun _ => false, fun _ => true] "A" "B").2.1
        (cells [fun _ => false, fun _ => true] "A" "B").2.2.1
        (cells [fun _ => false, fun _ => true] "A" "B").2.2.2 = none →
      (_ci_test st0 [fun _ => false, fun _ => true] "A" "B" ["B"]
        (1/2)).2 = 1) ∧
    cmhSums [fun _ => false, fun _ => true] "A" "B" ["B"] =
      cmhSumsValid [fun _ => false, fun _ => true] "A" "B" ["B"] ∧
    ((_ci_test st0 [fun _ => false, fun _ => true] "A" "B" ["B"]
        (1/2)).1 = true ↔
      (1:ℚ)/2 < (_ci_test st0 [fun _ => false, fun _ => true] "A" "B"
        ["B"] (1/2)).2) :=
  ⟨by norm_num,
    (ci_test_props st0 [fun _ => false, fun _ => true] "A" "B" ["B"] (1/2)
      (by norm_num)).1,
    (ci_test_props st0 [fun _ => false, fun _ => true] "A" "B" ["B"] (1/2)
      (by norm_num)).2.1,
    (ci_test_props st0 [fun _ => false, fun _ => true] "A" "B" ["B"] (1/2)
      (by norm_num)).2.2.1,
    (ci_test_props st0 [fun _ => false, fun _ => true] "A" "B" ["B"] (1/2)
      (by norm_num)).2.2.2⟩

/-! ## Order invariance of the learned skeleton (C2, amended)

The detail table depends on the iteration order of the conditioning-pool
set (counterexample above), but the learned edge set does not: any two
orderings of the pool enumerate the same family of size-`sz` subsets up
to permutation, `_ci_test` is invariant under permuting the conditioning
set, and an edge is removed exactly when some subset tests independent. -/

theorem mem_combos : ∀ (l : List α) (n : ℕ) (S : List α),
    S ∈ combos n l ↔ List.Sublist S l ∧ S.length = n := by
  intro l
  induction l with
  | nil =>
    intro n S
    cases n with
    | zero =>
      simp only [combos, List.mem_singleton]
      constructor
      · rintro rfl; exact ⟨List.Sublist.refl _, rfl⟩
      · rintro ⟨_, hlen⟩; exact List.length_eq_zero.mp hlen
    | succ n =>
      simp only [combos, List.not_mem_nil, false_iff, not_and]
      intro hs
      rw [List.sublist_nil.mp hs]
      simp only [List.length_nil]
      omega
  | cons x xs ih =>
    intro n S
    cases n with
    | zero =>
      simp only [combos, List.mem_singleton]
      constructor
      · rintro rfl; exact ⟨List.nil_sublist _, rfl⟩
      · rintro ⟨_, hlen⟩; exact List.length_eq_zero.mp hlen
    | succ n =>
      simp only [combos, List.mem_append, List.mem_map]
      constructor
      · rintro (⟨T, hT, rfl⟩ | hS)
        · obtain ⟨hsub, hlen⟩ := (ih n T).mp hT
          exact ⟨List.cons_sublist_cons.mpr hsub, by simp [hlen]⟩
        · obtain ⟨hsub, hlen⟩ := (ih (n + 1) S).mp hS
          exact ⟨hsub.cons x, hlen⟩
      · rintro ⟨hsub, hlen⟩
        rcases List.sublist_cons_iff.mp hsub with h | ⟨r, rfl, hr⟩
        · exact Or.inr ((ih (n + 1) S).mpr ⟨h, hlen⟩)
        · refine Or.inl ⟨r, (ih n r).mpr ⟨hr, ?_⟩, rfl⟩
          simpa using hlen

theorem groupsBy_congr [DecidableEq K] [DecidableEq L] (key1 : α → K)
    (key2 : α → L) (h : ∀ a b, key1 a = key1 b ↔ key2 a = key2 b) :
    ∀ (rows rows0 : List α),
      ((rows.map key1).dedup).map
          (fun k => rows0.filter (fun r => decide (key1 r = k))) =
        ((rows.map key2).dedup).map
          (fun k => rows0.filter (fun r => decide (key2 r = k))) := by
  intro rows
  induction rows with
  | nil => intro rows0; rfl
  | cons a l ih =>
    intro rows0
    simp only [List.map_cons]
    by_cases hm : key1 a ∈ l.map key1
    · have hm2 : key2 a ∈ l.map key2 := by
        obtain ⟨b, hb, hkey⟩ := List.mem_map.mp hm
        exact List.mem_map.mpr ⟨b, hb, (h b a).mp hkey⟩
      rw [List.dedup_cons_of_mem hm, List.dedup_cons_of_mem hm2, ih]
    · have hm2 : key2 a ∉ l.map key2 := by
        intro hc
        obtain ⟨b, hb, hkey⟩ := List.mem_map.mp hc
        exact hm (List.mem_map.mpr ⟨b, hb, (h b a).mpr hkey⟩)
      rw [List.dedup_cons_of_not_mem hm, List.dedup_cons_of_not_mem hm2,
        List.map_cons, List.map_cons, ih]
      congr 1
      exact List.filter_congr (fun r _ => by
        simp only [decide_eq_decide]
        exact h r a)

theorem groupsBy_map_perm (rows : List BRow) {S1 S2 : List String}
    (hp : S1.Perm S2) :
    groupsBy (fun r => S1.map r) rows = groupsBy (fun r => S2.map r) rows := by
  unfold groupsBy
  exact groupsBy_congr _ _ (fun a b => by
    rw [List.map_eq_map_iff, List.map_eq_map_iff]
    exact ⟨fun hh c hc => hh c (hp.mem_iff.mpr hc),
      fun hh c hc => hh c (hp.mem_iff.mp hc)⟩) rows rows

theorem cmhSums_perm (rows : List BRow) (i j : String) {S1 S2 : List String}
    (hp : S1.Perm S2) : cmhSums rows i j S1 = cmhSums rows i j S2 := by
  unfold cmhSums
  rw [groupsBy_map_perm rows hp]

theorem ci_test_perm (st : PyStats) (rows : List BRow) (i j : String)
    (alpha : ℚ) {S1 S2 : List String} (hp : S1.Perm S2) :
    _ci_test st rows i j S1 alpha = _ci_test st rows i j S2 alpha := by
  by_cases hnil : S1 = []
  · subst hnil
    rw [List.perm_nil.mp hp.symm]
  · have hnil2 : S2 ≠ [] := fun hc => hnil (List.perm_nil.mp (hc ▸ hp))
    unfold _ci_test
    rw [if_neg hnil, if_neg hnil2, cmhSums_perm rows i j hp]

theorem edgeStep_fst (st : PyStats) (rows : List BRow) (alpha : ℚ)
    (ord : String → String → List String → List String)
    (es : List (String × String)) (sz : ℕ) (e : String × String) :
    (edgeStep st rows alpha ord es sz e).1 =
      if (ord e.1 e.2 (poolCode es e.1 e.2)).length < sz then false
      else ((combos sz (ord e.1 e.2 (poolCode es e.1 e.2))).find?
        (fun S => (_ci_test st rows e.1 e.2 S alpha).1)).isSome := by
  simp only [edgeStep]
  by_cases hlen : (ord e.1 e.2 (poolCode es e.1 e.2)).length < sz
  · rw [if_pos hlen, if_pos hlen]
  · rw [if_neg hlen, if_neg hlen]
    cases hfind : (combos sz (ord e.1 e.2 (poolCode es e.1 e.2))).find?
        (fun S => (_ci_test st rows e.1 e.2 S alpha).1) with
    | none =>
      by_cases hsz : sz = 0
      · simp [hsz]
      · simp [hsz]
    | some S => simp

theorem find_ci_perm (st : PyStats) (rows : List BRow) (i j : String)
    (alpha : ℚ) (sz : ℕ) {l1 l2 : List String} (hp : l1.Perm l2) :
    ((combos sz l1).find? (fun S => (_ci_test st rows i j S alpha).1)).isSome =
      ((combos sz l2).find?
        (fun S => (_ci_test st rows i j S alpha).1)).isSome := by
  have key : ∀ {m1 m2 : List String}, m1.Perm m2 →
      (∃ S, S ∈ combos sz m1 ∧ (_ci_test st rows i j S alpha).1 = true) →
      ∃ S, S ∈ combos sz m2 ∧ (_ci_test st rows i j S alpha).1 = true := by
    rintro m1 m2 hm ⟨S, hS, hci⟩
    obtain ⟨hsub, hlen⟩ := (mem_combos m1 sz S).mp hS
    obtain ⟨T, hTS, hT⟩ := (hm.subperm_left).mp hsub.subperm
    refine ⟨T, (mem_combos m2 sz T).mpr
      ⟨hT, by rw [hTS.length_eq]; exact hlen⟩, ?_⟩
    rw [ci_test_perm st rows i j alpha hTS]
    exact hci
  rw [Bool.eq_iff_iff, List.find?_isSome, List.find?_isSome]
  constructor
  · rintro ⟨S, hS, hci⟩
    exact key hp ⟨S, hS, hci⟩
  · rintro ⟨S, hS, hci⟩
    exact key hp.symm ⟨S, hS, hci⟩

theorem edgeStep_fst_congr (st : PyStats) (rows : List BRow) (alpha : ℚ)
    (ord1 ord2 : String → String → List String → List String)
    (h1 : ∀ u v l, (ord1 u v l).Perm l) (h2 : ∀ u v l, (ord2 u v l).Perm l)
    (es : List (String × String)) (sz : ℕ) (e : String × String) :
    (edgeStep st rows alpha ord1 es sz e).1 =
      (edgeStep st rows alpha ord2 es sz e).1 := by
  rw [edgeStep_fst, edgeStep_fst]
  have hp : (ord1 e.1 e.2 (poolCode es e.1 e.2)).Perm
      (ord2 e.1 e.2 (poolCode es e.1 e.2)) :=
    (h1 e.1 e.2 _).trans (h2 e.1 e.2 _).symm
  rw [hp.length_eq, find_ci_perm st rows e.1 e.2 alpha sz hp]

theorem phase1_fold_fst_congr (st : PyStats) (rows : List BRow) (alpha : ℚ)
    (ord1 ord2 : String → String → List String → List String)
    (h1 : ∀ u v l, (ord1 u v l).Perm l) (h2 : ∀ u v l, (ord2 u v l).Perm l) :
    ∀ (szs : List ℕ) (acc1 acc2 : List (String × String) × List DetailRow),
      acc1.1 = acc2.1 →
      (szs.foldl (phaseStep st rows alpha ord1) acc1).1 =
        (szs.foldl (phaseStep st rows alpha ord2) acc2).1 := by
  intro szs
  induction szs with
  | nil => intro acc1 acc2 h; exact h
  | cons sz l ih =>
    intro acc1 acc2 h
    simp only [List.foldl_cons]
    apply ih
    show acc1.1.filter (fun e => !(edgeStep st rows alpha ord1 acc1.1 sz e).1) =
      acc2.1.filter (fun e => !(edgeStep st rows alpha ord2 acc2.1 sz e).1)
    rw [h]
    exact List.filter_congr (fun e _ => by
      rw [edgeStep_fst_congr st rows alpha ord1 ord2 h1 h2 acc2.1 sz e])

/-- **C2, amended.** The learned skeleton — the edge list surviving the
edge-removal phase — is the same under any two iteration orders of the
Python sets holding the conditioning pools: whenever both ordering
functions merely permute the canonical pool listing, the edge components
of `pc_skeleton_phase1` agree, for every data set, oracle, significance
level and maximum conditioning size.  (Only the `Cond_Set`/`P_Value`
columns of the detail table can differ between runs, as the
counterexample shows.)  Hence the skeleton itself is reproducible and is
fixed by the feature-name ordering alone. -/
theorem pc_skeleton_edges_order_invariant (st : PyStats) (rows : List BRow)
    (features : List String) (alpha : ℚ) (maxCond : ℕ)
    (ord1 ord2 : String → String → List String → List String)
    (h1 : ∀ u v l, (ord1 u v l).Perm l) (h2 : ∀ u v l, (ord2 u v l).Perm l) :
    (pc_skeleton_phase1 st rows features alpha maxCond ord1).1 =
      (pc_skeleton_phase1 st rows features alpha maxCond ord2).1 := by
  unfold pc_skeleton_phase1
  exact phase1_fold_fst_congr st rows alpha ord1 ord2 h1 h2
    (List.range (maxCond + 1)) (pairsOf features, []) (pairsOf features, []) rfl

/-- Closing the hypotheses of `pc_skeleton_edges_order_invariant` at a
concrete instance: the identity ordering and the partially reversed
ordering `ordSwap` (both permute the canonical pool listing) yield the
same surviving edge list on the two-row data set. -/
theorem pc_skeleton_edges_order_invariant_witness :
    (pc_skeleton_phase1 st0 [fun _ => false, fun _ => true]
        ["A", "B", "C"] 2 1 ordId).1 =
      (pc_skeleton_phase1 st0 [fun _ => false, fun _ => true]
        ["A", "B", "C"] 2 1 ordSwap).1 :=
  pc_skeleton_edges_order_invariant st0 [fun _ => false, fun _ => true]
    ["A", "B", "C"] 2 1 ordId ordSwap
    (fun _ _ l => List.Perm.refl l)
    (fun u v l => by
      unfold ordSwap
      split
      · exact l.reverse_perm
      · exact List.Perm.refl l)

end BactMdr
